import Mathlib

/-!
Shallow embedding of the profile-data core of the perf.html repository
(`profile-data.js`): raw trace tables, the call-node builder
(`getCallNodeInfo`), the path/index resolver, the timing aggregator
(`getTimingsForCallNodeIndex`), the range filter, the tree-order comparator,
the native-allocation pairing passes and the event-delay post-processor,
together with theorems checking the specification's claims about them.

Columnar tables are embedded as structures of parallel `List`s with an
explicit `length` field, exactly mirroring the JS shape.  JS numbers that
hold table indices are embedded as `Nat` where the source guarantees
non-negativity and as `Int` where `-1` is used as a null sentinel (the
`prefix` columns).  Out-of-range reads, which in JS produce `undefined`,
are embedded with `List.getD` defaults; every theorem below only relies on
in-range reads.  Since `prefix` is a reserved keyword in Lean, the source's
`prefix` columns are named `parent` here.
-/

/-- `StackTable`: per raw stack, the source's `prefix` (parent stack or null),
`frame`, `category` and `subcategory` columns. -/
structure StackTable where
  parent : List (Option Nat)
  frame : List Nat
  category : List Int
  subcategory : List Int
  length : Nat
deriving DecidableEq

/-- `FrameTable`: per frame, its function, inner window id and the (nullable)
string index naming the JS implementation tier. -/
structure FrameTable where
  func : List Nat
  innerWindowID : List Int
  implementation : List (Option Nat)
  length : Nat
deriving DecidableEq

/-- `FuncTable`: per function, the `isJS` flag (the only column the embedded
functions read) and the table length (`funcCount` in the builder). -/
structure FuncTable where
  isJS : List Bool
  length : Nat
deriving DecidableEq

/-- `CallNodeTable`: the call-node builder's output.  `parent` is the source's
`prefix` column (`-1` for roots). -/
structure CallNodeTable where
  parent : List Int
  func : List Nat
  category : List Int
  subcategory : List Int
  innerWindowID : List Int
  depth : List Nat
  length : Nat
deriving DecidableEq

/-- The builder's working state: the table under construction, the
`prefixCallNodeAndFuncToCallNodeMap` (an association list keyed by the
composite key `prefixCallNode * funcCount + funcIndex`, most recent binding
first, mirroring a JS `Map` that is only ever written at fresh keys) and the
`stackIndexToCallNodeIndex` array. -/
structure CallNodeBuildState where
  table : CallNodeTable
  keyToCallNode : List (Int × Nat)
  stackIndexToCallNodeIndex : List Nat
deriving DecidableEq

/-- JS `Map.get`: the binding for `k`, if any. -/
def mapGet (m : List (Int × Nat)) (k : Int) : Option Nat :=
  (m.find? (fun p => p.1 == k)).map (fun p => p.2)

def emptyCallNodeTable : CallNodeTable :=
  { parent := [], func := [], category := [], subcategory := [],
    innerWindowID := [], depth := [], length := 0 }

/-- The builder's inner `addCallNode`: append one call node; its depth is `0`
for roots and `depth[prefixIndex] + 1` otherwise. -/
def addCallNode (t : CallNodeTable) (prefixIndex : Int) (funcIndex : Nat)
    (categoryIndex subcategoryIndex : Int) (windowID : Int) : CallNodeTable :=
  { parent := t.parent ++ [prefixIndex]
    func := t.func ++ [funcIndex]
    category := t.category ++ [categoryIndex]
    subcategory := t.subcategory ++ [subcategoryIndex]
    innerWindowID := t.innerWindowID ++ [windowID]
    depth := t.depth ++
      [if prefixIndex = -1 then 0 else t.depth.getD prefixIndex.toNat 0 + 1]
    length := t.length + 1 }

/-- `resolvedPrefixCallNode`: the `prefixCallNode` local of the builder loop,
`-1` for a root stack and the parent stack's already-recorded call node
otherwise. -/
def resolvedPrefixCallNode (stackTable : StackTable) (st : CallNodeBuildState)
    (stackIndex : Nat) : Int :=
  match stackTable.parent.getD stackIndex none with
  | none => -1
  | some ps => (st.stackIndexToCallNodeIndex.getD ps 0 : Int)

/-- The composite key `prefixCallNode * funcCount + funcIndex` computed by the
builder for the stack `stackIndex` given the state `st`. -/
def callNodeKey (stackTable : StackTable) (frameTable : FrameTable)
    (funcCount : Nat) (st : CallNodeBuildState) (stackIndex : Nat) : Int :=
  let prefixCallNode : Int := resolvedPrefixCallNode stackTable st stackIndex
  let frameIndex := stackTable.frame.getD stackIndex 0
  let funcIndex := frameTable.func.getD frameIndex 0
  prefixCallNode * (funcCount : Int) + (funcIndex : Int)

/-- One iteration of the builder's main loop over `stackIndex`: look the
composite key up; allocate a new call node on a miss, otherwise apply the
category/subcategory conflict-resolution rules to the existing node; record
the resolved call node in `stackIndexToCallNodeIndex` either way. -/
def getCallNodeInfoStep (stackTable : StackTable) (frameTable : FrameTable)
    (funcCount : Nat) (defaultCategory : Int) (st : CallNodeBuildState)
    (stackIndex : Nat) : CallNodeBuildState :=
  let prefixCallNode : Int := resolvedPrefixCallNode stackTable st stackIndex
  let frameIndex := stackTable.frame.getD stackIndex 0
  let categoryIndex := stackTable.category.getD stackIndex 0
  let subcategoryIndex := stackTable.subcategory.getD stackIndex 0
  let windowID := frameTable.innerWindowID.getD frameIndex 0
  let funcIndex := frameTable.func.getD frameIndex 0
  let key := callNodeKey stackTable frameTable funcCount st stackIndex
  match mapGet st.keyToCallNode key with
  | none =>
      let callNodeIndex := st.table.length
      { table := addCallNode st.table prefixCallNode funcIndex categoryIndex
          subcategoryIndex windowID
        keyToCallNode := (key, callNodeIndex) :: st.keyToCallNode
        stackIndexToCallNodeIndex :=
          st.stackIndexToCallNodeIndex ++ [callNodeIndex] }
  | some callNodeIndex =>
      let t := st.table
      let t :=
        if t.category.getD callNodeIndex 0 ≠ categoryIndex then
          -- Conflicting origin stack categories -> default category + subcategory.
          { t with category := t.category.set callNodeIndex defaultCategory
                   subcategory := t.subcategory.set callNodeIndex 0 }
        else if t.subcategory.getD callNodeIndex 0 ≠ subcategoryIndex then
          -- Conflicting origin stack subcategories -> "Other" subcategory.
          { t with subcategory := t.subcategory.set callNodeIndex 0 }
        else t
      { table := t
        keyToCallNode := st.keyToCallNode
        stackIndexToCallNodeIndex :=
          st.stackIndexToCallNodeIndex ++ [callNodeIndex] }

/-- `getCallNodeInfo`: run the builder over every stack in index order. -/
def getCallNodeInfo (stackTable : StackTable) (frameTable : FrameTable)
    (funcTable : FuncTable) (defaultCategory : Int) : CallNodeBuildState :=
  (List.range stackTable.length).foldl
    (getCallNodeInfoStep stackTable frameTable funcTable.length defaultCategory)
    { table := emptyCallNodeTable, keyToCallNode := [],
      stackIndexToCallNodeIndex := [] }

/-- Well-formedness of a `StackTable`, asserted by the builder's own comment:
every stack's `prefix` points to a strictly earlier stack. -/
def WFStackTable (stackTable : StackTable) : Prop :=
  ∀ i, i < stackTable.length →
    ∀ ps, stackTable.parent.getD i none = some ps → ps < i

instance (stackTable : StackTable) : Decidable (WFStackTable stackTable) := by
  unfold WFStackTable; infer_instance

/-- The parent/depth invariant claimed for one row of a `CallNodeTable`:
roots have depth `0`; a non-root's parent precedes it and is one level
shallower. -/
def CallNodeParentDepthOK (t : CallNodeTable) (i : Nat) : Prop :=
  (t.parent.getD i 0 = -1 → t.depth.getD i 0 = 0) ∧
  (t.parent.getD i 0 ≠ -1 →
    0 ≤ t.parent.getD i 0 ∧ t.parent.getD i 0 < (i : Int) ∧
    t.depth.getD (t.parent.getD i 0).toNat 0 + 1 = t.depth.getD i 0)

instance (t : CallNodeTable) (i : Nat) : Decidable (CallNodeParentDepthOK t i) := by
  unfold CallNodeParentDepthOK; infer_instance

/-! ### List helper lemmas (reads of appended / updated columns) -/

theorem getD_append_lt {α : Type} (l : List α) (x d : α) (i : Nat)
    (h : i < l.length) : (l ++ [x]).getD i d = l.getD i d := by
  simp [List.getD_eq_getElem?_getD, List.getElem?_append_left h]

theorem getD_append_self {α : Type} (l : List α) (x d : α) :
    (l ++ [x]).getD l.length d = x := by
  simp [List.getD_eq_getElem?_getD, List.getElem?_concat_length]

theorem getD_set_self {α : Type} (l : List α) (x d : α) (i : Nat)
    (h : i < l.length) : (l.set i x).getD i d = x := by
  simp [List.getD_eq_getElem?_getD, List.getElem?_set_self h]

theorem getD_set_ne {α : Type} (l : List α) (x d : α) (i j : Nat)
    (h : i ≠ j) : (l.set i x).getD j d = l.getD j d := by
  simp [List.getD_eq_getElem?_getD, List.getElem?_set_ne h]

theorem getD_append_at {α : Type} (l : List α) (x d : α) (i : Nat)
    (h : i = l.length) : (l ++ [x]).getD i d = x := by
  subst h; exact getD_append_self l x d

/-- Base invariant of the builder state: parallel columns agree in length, all
cached call-node references are in range, and every row built so far
satisfies the parent/depth invariant. -/
structure BuildInvBase (st : CallNodeBuildState) : Prop where
  lenParent : st.table.parent.length = st.table.length
  lenFunc : st.table.func.length = st.table.length
  lenCat : st.table.category.length = st.table.length
  lenSub : st.table.subcategory.length = st.table.length
  lenDepth : st.table.depth.length = st.table.length
  mapValues : ∀ p ∈ st.keyToCallNode, p.2 < st.table.length
  s2cValid : ∀ j, j < st.stackIndexToCallNodeIndex.length →
    st.stackIndexToCallNodeIndex.getD j 0 < st.table.length
  rowOK : ∀ i, i < st.table.length → CallNodeParentDepthOK st.table i

theorem resolvedPrefixCallNode_cases (stackTable : StackTable)
    (st : CallNodeBuildState) (stackIndex : Nat) (hinv : BuildInvBase st)
    (hps : ∀ ps, stackTable.parent.getD stackIndex none = some ps →
      ps < st.stackIndexToCallNodeIndex.length) :
    resolvedPrefixCallNode stackTable st stackIndex = -1 ∨
      (0 ≤ resolvedPrefixCallNode stackTable st stackIndex ∧
       resolvedPrefixCallNode stackTable st stackIndex < (st.table.length : Int)) := by
  unfold resolvedPrefixCallNode
  cases h : stackTable.parent.getD stackIndex none with
  | none => exact Or.inl rfl
  | some ps =>
      right
      constructor
      · show (0 : Int) ≤ ((st.stackIndexToCallNodeIndex.getD ps 0 : Nat) : Int)
        exact Int.natCast_nonneg _
      · show ((st.stackIndexToCallNodeIndex.getD ps 0 : Nat) : Int) <
          (st.table.length : Int)
        exact_mod_cast hinv.s2cValid ps (hps ps h)

theorem buildInvBase_allocate (st : CallNodeBuildState) (hinv : BuildInvBase st)
    (pc : Int)
    (hpc : pc = -1 ∨ (0 ≤ pc ∧ pc < (st.table.length : Int)))
    (f : Nat) (c s w k : Int) :
    BuildInvBase
      { table := addCallNode st.table pc f c s w
        keyToCallNode := (k, st.table.length) :: st.keyToCallNode
        stackIndexToCallNodeIndex :=
          st.stackIndexToCallNodeIndex ++ [st.table.length] } := by
  have lenP := hinv.lenParent
  have lenD := hinv.lenDepth
  refine ⟨?_, ?_, ?_, ?_, ?_, ?_, ?_, ?_⟩
  · simp [addCallNode, hinv.lenParent]
  · simp [addCallNode, hinv.lenFunc]
  · simp [addCallNode, hinv.lenCat]
  · simp [addCallNode, hinv.lenSub]
  · simp [addCallNode, hinv.lenDepth]
  · intro p hp
    rcases List.mem_cons.mp hp with h | h
    · subst h; simp [addCallNode]
    · have := hinv.mapValues p h
      simp only [addCallNode]
      omega
  · intro j hj
    simp only [List.length_append, List.length_singleton] at hj
    simp only [addCallNode]
    rcases Nat.lt_succ_iff_lt_or_eq.mp hj with h | h
    · rw [getD_append_lt _ _ _ _ h]
      have := hinv.s2cValid j h
      omega
    · rw [getD_append_at _ _ _ _ h]
      omega
  · intro i hi
    simp only [addCallNode] at hi ⊢
    rcases Nat.lt_succ_iff_lt_or_eq.mp hi with h | h
    · -- an old row: all relevant column reads are unchanged
      have hrow := hinv.rowOK i h
      have e1 : (st.table.parent ++ [pc]).getD i 0 = st.table.parent.getD i 0 :=
        getD_append_lt _ _ _ _ (by omega)
      have e2 : (st.table.depth ++
          [if pc = -1 then 0 else st.table.depth.getD pc.toNat 0 + 1]).getD i 0 =
          st.table.depth.getD i 0 :=
        getD_append_lt _ _ _ _ (by omega)
      constructor
      · intro hroot
        rw [e2]
        exact hrow.1 (by rwa [e1] at hroot)
      · intro hnonroot
        rw [e1] at hnonroot
        obtain ⟨h0, hlt, hdep⟩ := hrow.2 hnonroot
        refine ⟨by rwa [e1], by rwa [e1], ?_⟩
        rw [e1, e2]
        have htn : (st.table.parent.getD i 0).toNat < st.table.depth.length := by
          omega
        rw [getD_append_lt _ _ _ _ htn]
        exact hdep
    · -- the freshly appended row
      subst h
      have e1 : (st.table.parent ++ [pc]).getD st.table.length 0 = pc :=
        getD_append_at _ _ _ _ lenP.symm
      have e2 : (st.table.depth ++
          [if pc = -1 then 0 else st.table.depth.getD pc.toNat 0 + 1]).getD
            st.table.length 0 =
          (if pc = -1 then 0 else st.table.depth.getD pc.toNat 0 + 1) :=
        getD_append_at _ _ _ _ lenD.symm
      constructor
      · intro hroot
        rw [e1] at hroot
        rw [e2, if_pos hroot]
      · intro hnonroot
        rw [e1] at hnonroot
        rcases hpc with h | ⟨h0, hlt⟩
        · exact absurd h hnonroot
        · refine ⟨by rwa [e1], by rw [e1]; exact_mod_cast hlt, ?_⟩
          rw [e1, e2, if_neg hnonroot]
          have htn : pc.toNat < st.table.depth.length := by omega
          rw [getD_append_lt _ _ _ _ htn]

theorem buildInvBase_hit (st : CallNodeBuildState) (hinv : BuildInvBase st)
    (ci : Nat) (hci : ci < st.table.length) (t2 : CallNodeTable)
    (hp : t2.parent = st.table.parent) (hf : t2.func = st.table.func)
    (hd : t2.depth = st.table.depth) (hlen : t2.length = st.table.length)
    (hc : t2.category.length = st.table.category.length)
    (hs : t2.subcategory.length = st.table.subcategory.length) :
    BuildInvBase
      { table := t2
        keyToCallNode := st.keyToCallNode
        stackIndexToCallNodeIndex := st.stackIndexToCallNodeIndex ++ [ci] } := by
  refine ⟨?_, ?_, ?_, ?_, ?_, ?_, ?_, ?_⟩
  · rw [hp, hlen]; exact hinv.lenParent
  · rw [hf, hlen]; exact hinv.lenFunc
  · rw [hc, hlen]; exact hinv.lenCat
  · rw [hs, hlen]; exact hinv.lenSub
  · rw [hd, hlen]; exact hinv.lenDepth
  · intro p hpmem
    rw [hlen]
    exact hinv.mapValues p hpmem
  · intro j hj
    simp only [List.length_append, List.length_singleton] at hj
    rw [hlen]
    rcases Nat.lt_succ_iff_lt_or_eq.mp hj with h | h
    · rw [getD_append_lt _ _ _ _ h]
      exact hinv.s2cValid j h
    · rw [getD_append_at _ _ _ _ h]
      exact hci
  · intro i hi
    rw [hlen] at hi
    have hrow := hinv.rowOK i hi
    unfold CallNodeParentDepthOK at hrow ⊢
    rw [hp, hd]
    exact hrow

theorem mapGet_mem (m : List (Int × Nat)) (k : Int) (v : Nat)
    (h : mapGet m k = some v) : (k, v) ∈ m := by
  unfold mapGet at h
  cases hf : m.find? (fun p => p.1 == k) with
  | none => rw [hf] at h; simp at h
  | some p =>
      rw [hf] at h
      have hmem := List.mem_of_find?_eq_some hf
      have hp : p.1 = k := by simpa using List.find?_some hf
      have hv : p.2 = v := by simpa using h
      have hpv : p = (k, v) := by
        rw [← hp, ← hv]
      rw [hpv] at hmem; exact hmem

theorem getCallNodeInfoStep_preserves (stackTable : StackTable)
    (frameTable : FrameTable) (funcCount : Nat) (defaultCategory : Int)
    (st : CallNodeBuildState) (stackIndex : Nat) (hinv : BuildInvBase st)
    (hps : ∀ ps, stackTable.parent.getD stackIndex none = some ps →
      ps < st.stackIndexToCallNodeIndex.length) :
    BuildInvBase
      (getCallNodeInfoStep stackTable frameTable funcCount defaultCategory st
        stackIndex) := by
  have hpc := resolvedPrefixCallNode_cases stackTable st stackIndex hinv hps
  simp only [getCallNodeInfoStep]
  cases hm : mapGet st.keyToCallNode
      (callNodeKey stackTable frameTable funcCount st stackIndex) with
  | none =>
      exact buildInvBase_allocate st hinv _ hpc _ _ _ _ _
  | some ci =>
      have hci : ci < st.table.length :=
        hinv.mapValues _ (mapGet_mem _ _ _ hm)
      by_cases h1 : st.table.category.getD ci 0 ≠ stackTable.category.getD stackIndex 0
      · simp only [if_pos h1]
        exact buildInvBase_hit st hinv ci hci _ rfl rfl rfl rfl
          (by simp) (by simp)
      · simp only [if_neg h1]
        by_cases h2 : st.table.subcategory.getD ci 0 ≠ stackTable.subcategory.getD stackIndex 0
        · simp only [if_pos h2]
          exact buildInvBase_hit st hinv ci hci _ rfl rfl rfl rfl rfl (by simp)
        · simp only [if_neg h2]
          exact buildInvBase_hit st hinv ci hci _ rfl rfl rfl rfl rfl rfl

theorem getCallNodeInfoStep_s2c_length (stackTable : StackTable)
    (frameTable : FrameTable) (funcCount : Nat) (defaultCategory : Int)
    (st : CallNodeBuildState) (stackIndex : Nat) :
    (getCallNodeInfoStep stackTable frameTable funcCount defaultCategory st
        stackIndex).stackIndexToCallNodeIndex.length =
      st.stackIndexToCallNodeIndex.length + 1 := by
  simp only [getCallNodeInfoStep]
  cases hm : mapGet st.keyToCallNode
      (callNodeKey stackTable frameTable funcCount st stackIndex) with
  | none => simp
  | some ci =>
      by_cases h1 : st.table.category.getD ci 0 ≠ stackTable.category.getD stackIndex 0
      · simp [if_pos h1]
      · simp only [if_neg h1]
        by_cases h2 : st.table.subcategory.getD ci 0 ≠ stackTable.subcategory.getD stackIndex 0
        · simp [if_pos h2]
        · simp [if_neg h2]

theorem buildInvBase_init :
    BuildInvBase
      { table := emptyCallNodeTable, keyToCallNode := [],
        stackIndexToCallNodeIndex := [] } := by
  refine ⟨rfl, rfl, rfl, rfl, rfl, ?_, ?_, ?_⟩
  · intro p hp; simp at hp
  · intro j hj; simp at hj
  · intro i hi; simp [emptyCallNodeTable] at hi

theorem buildInv_fold (stackTable : StackTable) (frameTable : FrameTable)
    (funcCount : Nat) (defaultCategory : Int) (hwf : WFStackTable stackTable) :
    ∀ n, n ≤ stackTable.length →
      BuildInvBase
        ((List.range n).foldl
          (getCallNodeInfoStep stackTable frameTable funcCount defaultCategory)
          { table := emptyCallNodeTable, keyToCallNode := [],
            stackIndexToCallNodeIndex := [] }) ∧
      ((List.range n).foldl
          (getCallNodeInfoStep stackTable frameTable funcCount defaultCategory)
          { table := emptyCallNodeTable, keyToCallNode := [],
            stackIndexToCallNodeIndex := [] }).stackIndexToCallNodeIndex.length
        = n := by
  intro n
  induction n with
  | zero => intro _; exact ⟨buildInvBase_init, rfl⟩
  | succ n ih =>
      intro hn
      obtain ⟨hinv, hlen⟩ := ih (by omega)
      rw [List.range_succ, List.foldl_append, List.foldl_cons, List.foldl_nil]
      constructor
      · apply getCallNodeInfoStep_preserves _ _ _ _ _ _ hinv
        intro ps hpsh
        rw [hlen]
        exact hwf n (by omega) ps hpsh
      · rw [getCallNodeInfoStep_s2c_length, hlen]

/-- C1: for every well-formed `StackTable` (parents precede children, as the
builder's own assertion requires), every row of the `CallNodeTable` produced
by `getCallNodeInfo` satisfies: a root (`prefix = -1`) has depth `0`, and a
non-root's `prefix` is a strictly smaller index whose depth is one less. -/
theorem callNodeTable_parent_depth_invariant (stackTable : StackTable)
    (frameTable : FrameTable) (funcTable : FuncTable) (defaultCategory : Int)
    (hwf : WFStackTable stackTable) :
    ∀ i,
      i < (getCallNodeInfo stackTable frameTable funcTable
            defaultCategory).table.length →
      CallNodeParentDepthOK
        (getCallNodeInfo stackTable frameTable funcTable defaultCategory).table
        i := by
  intro i hi
  exact (buildInv_fold stackTable frameTable funcTable.length defaultCategory
    hwf stackTable.length le_rfl).1.rowOK i hi

/-- Concrete example tables: three stacks, the second and third collapsing
into the same call node with conflicting categories. -/
def exStackTable : StackTable :=
  { parent := [none, some 0, some 0], frame := [0, 1, 2],
    category := [1, 1, 3], subcategory := [2, 0, 0], length := 3 }

def exFrameTable : FrameTable :=
  { func := [0, 1, 1], innerWindowID := [0, 0, 0],
    implementation := [none, none, none], length := 3 }

def exFuncTable : FuncTable := { isJS := [false, false], length := 2 }

/-- Witness for C1 at a concrete input. -/
theorem callNodeTable_parent_depth_invariant_witness :
    CallNodeParentDepthOK
      ((getCallNodeInfo exStackTable exFrameTable exFuncTable 0).table) 1 :=
  callNodeTable_parent_depth_invariant exStackTable exFrameTable exFuncTable 0
    (by decide) 1 (by decide)

/-- C3: when a stack collapses into an existing call node (its composite key
is already mapped), no new node is allocated and the node's
category/subcategory are resolved as follows: a category conflict downgrades
to `defaultCategory` with subcategory `0`; a subcategory-only conflict zeroes
just the subcategory; full agreement leaves the table untouched. -/
theorem collapse_category_conflict_rule (stackTable : StackTable)
    (frameTable : FrameTable) (funcCount : Nat) (defaultCategory : Int)
    (st : CallNodeBuildState) (stackIndex : Nat) (ci : Nat)
    (hci : mapGet st.keyToCallNode
      (callNodeKey stackTable frameTable funcCount st stackIndex) = some ci)
    (hlc : ci < st.table.category.length)
    (hls : ci < st.table.subcategory.length) :
    (getCallNodeInfoStep stackTable frameTable funcCount defaultCategory st
        stackIndex).table.length = st.table.length ∧
    (getCallNodeInfoStep stackTable frameTable funcCount defaultCategory st
        stackIndex).stackIndexToCallNodeIndex
      = st.stackIndexToCallNodeIndex ++ [ci] ∧
    (st.table.category.getD ci 0 ≠ stackTable.category.getD stackIndex 0 →
      (getCallNodeInfoStep stackTable frameTable funcCount defaultCategory st
          stackIndex).table.category.getD ci 0 = defaultCategory ∧
      (getCallNodeInfoStep stackTable frameTable funcCount defaultCategory st
          stackIndex).table.subcategory.getD ci 0 = 0) ∧
    (st.table.category.getD ci 0 = stackTable.category.getD stackIndex 0 →
      st.table.subcategory.getD ci 0 ≠ stackTable.subcategory.getD stackIndex 0 →
      (getCallNodeInfoStep stackTable frameTable funcCount defaultCategory st
          stackIndex).table.category = st.table.category ∧
      (getCallNodeInfoStep stackTable frameTable funcCount defaultCategory st
          stackIndex).table.subcategory.getD ci 0 = 0) ∧
    (st.table.category.getD ci 0 = stackTable.category.getD stackIndex 0 →
      st.table.subcategory.getD ci 0 = stackTable.subcategory.getD stackIndex 0 →
      (getCallNodeInfoStep stackTable frameTable funcCount defaultCategory st
          stackIndex).table = st.table) := by
  simp only [getCallNodeInfoStep, hci]
  by_cases h1 : st.table.category.getD ci 0 ≠ stackTable.category.getD stackIndex 0
  · simp only [if_pos h1]
    refine ⟨by simp, by simp, ?_, ?_, ?_⟩
    · intro _
      exact ⟨getD_set_self _ _ _ _ hlc, getD_set_self _ _ _ _ hls⟩
    · intro h _; exact absurd h h1
    · intro h _; exact absurd h h1
  · simp only [if_neg h1]
    by_cases h2 : st.table.subcategory.getD ci 0 ≠ stackTable.subcategory.getD stackIndex 0
    · simp only [if_pos h2]
      refine ⟨by simp, by simp, ?_, ?_, ?_⟩
      · intro h; exact absurd h h1
      · intro _ _
        exact ⟨by simp, getD_set_self _ _ _ _ hls⟩
      · intro _ h; exact absurd h h2
    · simp only [if_neg h2]
      refine ⟨by simp, by simp, ?_, ?_, ?_⟩
      · intro h; exact absurd h h1
      · intro _ h; exact absurd h h2
      · intro _ _; trivial

/-- The builder state after processing the first two stacks of the example. -/
def exBuildState2 : CallNodeBuildState :=
  (List.range 2).foldl (getCallNodeInfoStep exStackTable exFrameTable 2 0)
    { table := emptyCallNodeTable, keyToCallNode := [],
      stackIndexToCallNodeIndex := [] }

/-- Witness for C3: the example's third stack collapses into call node `1`
with a conflicting category. -/
theorem collapse_category_conflict_rule_witness :
    (getCallNodeInfoStep exStackTable exFrameTable 2 0 exBuildState2 2).table.length
        = exBuildState2.table.length ∧
    (getCallNodeInfoStep exStackTable exFrameTable 2 0 exBuildState2
        2).stackIndexToCallNodeIndex
      = exBuildState2.stackIndexToCallNodeIndex ++ [1] ∧
    (exBuildState2.table.category.getD 1 0 ≠ exStackTable.category.getD 2 0 →
      (getCallNodeInfoStep exStackTable exFrameTable 2 0 exBuildState2
          2).table.category.getD 1 0 = 0 ∧
      (getCallNodeInfoStep exStackTable exFrameTable 2 0 exBuildState2
          2).table.subcategory.getD 1 0 = 0) ∧
    (exBuildState2.table.category.getD 1 0 = exStackTable.category.getD 2 0 →
      exBuildState2.table.subcategory.getD 1 0 ≠ exStackTable.subcategory.getD 2 0 →
      (getCallNodeInfoStep exStackTable exFrameTable 2 0 exBuildState2
          2).table.category = exBuildState2.table.category ∧
      (getCallNodeInfoStep exStackTable exFrameTable 2 0 exBuildState2
          2).table.subcategory.getD 1 0 = 0) ∧
    (exBuildState2.table.category.getD 1 0 = exStackTable.category.getD 2 0 →
      exBuildState2.table.subcategory.getD 1 0 = exStackTable.subcategory.getD 2 0 →
      (getCallNodeInfoStep exStackTable exFrameTable 2 0 exBuildState2
          2).table = exBuildState2.table) :=
  collapse_category_conflict_rule exStackTable exFrameTable 2 0 exBuildState2 2
    1 (by decide) (by decide) (by decide)

/-!  ### Path/Index resolver -/

/-- `_getCallNodeIndexFromParentAndFunc`: scan the call-node table from
`parent + 1` (children always come after their parents) for the first entry
whose `prefix` is `parent` and whose `func` is `func`. -/
def getCallNodeIndexFromParentAndFunc (parent : Int) (func : Nat)
    (t : CallNodeTable) : Option Nat :=
  (List.range' (parent + 1).toNat (t.length - (parent + 1).toNat)).find?
    (fun i => decide (t.parent.getD i 0 = parent) &&
      decide (t.func.getD i 0 = func))

/-- Step 2 of `_getCallNodeIndexFromPathWithCache`: resolve the remaining
path downward from a known call-node index (`-1` for the root).
`getCallNodeIndexFromPath` allocates a fresh (empty) cache per call
(`getCallNodeIndicesFromPaths`), so for a single path the cache look-ups in
step 1 all miss and the cache writes of step 2 are discarded; this loop is
the whole observable behaviour, independent of the `hashPath` function. -/
def resolveCallNodePathFrom (t : CallNodeTable) : Int → List Nat → Option Int
  | index, [] => some index
  | index, func :: rest =>
      match getCallNodeIndexFromParentAndFunc index func t with
      | none => none
      | some next => resolveCallNodePathFrom t (next : Int) rest

/-- `getCallNodeIndexFromPath` (single-path, fresh-cache instantiation of
`_getCallNodeIndexFromPathWithCache`): `null` when the walk fails or when
the final index is negative (the empty path). -/
def getCallNodeIndexFromPath (callNodePath : List Nat) (t : CallNodeTable) :
    Option Nat :=
  match resolveCallNodePathFrom t (-1) callNodePath with
  | none => none
  | some index => if index < 0 then none else some index.toNat

/-- The loop of `getCallNodePathFromIndex`, walking `prefix` pointers until
`-1` and collecting `func` values; the source pushes then reverses, which is
the same as this root-first construction.  `fuel` bounds the walk (the JS
loop terminates because parents precede children). -/
def getCallNodePathFromIndexGo (t : CallNodeTable) : Nat → Int → List Nat
  | 0, _ => []
  | fuel + 1, fs =>
      if fs = -1 then []
      else
        getCallNodePathFromIndexGo t fuel (t.parent.getD fs.toNat 0) ++
          [t.func.getD fs.toNat 0]

/-- `getCallNodePathFromIndex`: the call-node path (root-first function
indices) for a call-node index, `[]` for `null`. -/
def getCallNodePathFromIndex (callNodeIndex : Option Nat)
    (t : CallNodeTable) : List Nat :=
  match callNodeIndex with
  | none => []
  | some i => getCallNodePathFromIndexGo t (i + 1) (i : Int)

/-- Well-formedness of a call-node table (established by the builder). -/
structure WFCallNodeTable (t : CallNodeTable) : Prop where
  lenParent : t.parent.length = t.length
  lenFunc : t.func.length = t.length
  lenDepth : t.depth.length = t.length
  rowOK : ∀ i, i < t.length → CallNodeParentDepthOK t i

/-- No two rows of the table share the same (parent, func) pair. -/
def UniqueParentFunc (t : CallNodeTable) : Prop :=
  ∀ i j, i < t.length → j < t.length →
    t.parent.getD i 0 = t.parent.getD j 0 →
    t.func.getD i 0 = t.func.getD j 0 → i = j

/-- Map invariant of the builder: every built row can be looked up in the
composite-key map by its own key. -/
def BuildInvMap (F : Nat) (st : CallNodeBuildState) : Prop :=
  ∀ v, v < st.table.length →
    mapGet st.keyToCallNode
      (st.table.parent.getD v 0 * (F : Int) + (st.table.func.getD v 0 : Int))
      = some v

theorem mapGet_cons_self (m : List (Int × Nat)) (k : Int) (v : Nat) :
    mapGet ((k, v) :: m) k = some v := by
  unfold mapGet
  simp

theorem mapGet_cons_ne (m : List (Int × Nat)) (k : Int) (v : Nat) (k2 : Int)
    (h : k2 ≠ k) : mapGet ((k, v) :: m) k2 = mapGet m k2 := by
  unfold mapGet
  rw [List.find?_cons_of_neg]
  simp [Ne.symm h]

theorem getCallNodeInfoStep_preserves_mapInv (stackTable : StackTable)
    (frameTable : FrameTable) (funcCount : Nat) (defaultCategory : Int)
    (st : CallNodeBuildState) (stackIndex : Nat) (hbase : BuildInvBase st)
    (hmap : BuildInvMap funcCount st) :
    BuildInvMap funcCount
      (getCallNodeInfoStep stackTable frameTable funcCount defaultCategory st
        stackIndex) := by
  simp only [getCallNodeInfoStep]
  cases hm : mapGet st.keyToCallNode
      (callNodeKey stackTable frameTable funcCount st stackIndex) with
  | none =>
      intro v hv
      simp only [addCallNode] at hv ⊢
      rcases Nat.lt_succ_iff_lt_or_eq.mp hv with h | h
      · have e1 : (st.table.parent ++
            [resolvedPrefixCallNode stackTable st stackIndex]).getD v 0 =
            st.table.parent.getD v 0 :=
          getD_append_lt _ _ _ _ (by rw [hbase.lenParent]; exact h)
        have e2 : (st.table.func ++
            [frameTable.func.getD (stackTable.frame.getD stackIndex 0) 0]).getD
              v 0 = st.table.func.getD v 0 :=
          getD_append_lt _ _ _ _ (by rw [hbase.lenFunc]; exact h)
        rw [e1, e2]
        have hne : st.table.parent.getD v 0 * (funcCount : Int) +
            (st.table.func.getD v 0 : Int) ≠
            callNodeKey stackTable frameTable funcCount st stackIndex := by
          intro he
          have := hmap v h
          rw [he, hm] at this
          exact Option.noConfusion this
        rw [mapGet_cons_ne _ _ _ _ hne]
        exact hmap v h
      · subst h
        have e1 : (st.table.parent ++
            [resolvedPrefixCallNode stackTable st stackIndex]).getD
              st.table.length 0 =
            resolvedPrefixCallNode stackTable st stackIndex :=
          getD_append_at _ _ _ _ hbase.lenParent.symm
        have e2 : (st.table.func ++
            [frameTable.func.getD (stackTable.frame.getD stackIndex 0) 0]).getD
              st.table.length 0 =
            frameTable.func.getD (stackTable.frame.getD stackIndex 0) 0 :=
          getD_append_at _ _ _ _ hbase.lenFunc.symm
        rw [e1, e2]
        have hkey : resolvedPrefixCallNode stackTable st stackIndex *
            (funcCount : Int) +
            (frameTable.func.getD (stackTable.frame.getD stackIndex 0) 0 : Int)
            = callNodeKey stackTable frameTable funcCount st stackIndex := rfl
        rw [hkey]
        exact mapGet_cons_self _ _ _
  | some ci =>
      intro v hv
      by_cases h1 : st.table.category.getD ci 0 ≠ stackTable.category.getD stackIndex 0
      · simp only [if_pos h1] at hv ⊢
        exact hmap v hv
      · simp only [if_neg h1] at hv ⊢
        by_cases h2 : st.table.subcategory.getD ci 0 ≠ stackTable.subcategory.getD stackIndex 0
        · simp only [if_pos h2] at hv ⊢
          exact hmap v hv
        · simp only [if_neg h2] at hv ⊢
          exact hmap v hv

theorem buildInvMap_fold (stackTable : StackTable) (frameTable : FrameTable)
    (funcCount : Nat) (defaultCategory : Int) (hwf : WFStackTable stackTable) :
    ∀ n, n ≤ stackTable.length →
      BuildInvMap funcCount
        ((List.range n).foldl
          (getCallNodeInfoStep stackTable frameTable funcCount defaultCategory)
          { table := emptyCallNodeTable, keyToCallNode := [],
            stackIndexToCallNodeIndex := [] }) := by
  intro n
  induction n with
  | zero => intro _ v hv; simp [emptyCallNodeTable] at hv
  | succ n ih =>
      intro hn
      rw [List.range_succ, List.foldl_append, List.foldl_cons, List.foldl_nil]
      exact getCallNodeInfoStep_preserves_mapInv _ _ _ _ _ _
        (buildInv_fold stackTable frameTable funcCount defaultCategory hwf n
          (by omega)).1
        (ih (by omega))

/-- The builder's output table is well-formed. -/
theorem getCallNodeInfo_wfTable (stackTable : StackTable)
    (frameTable : FrameTable) (funcTable : FuncTable) (defaultCategory : Int)
    (hwf : WFStackTable stackTable) :
    WFCallNodeTable
      (getCallNodeInfo stackTable frameTable funcTable defaultCategory).table := by
  have h := (buildInv_fold stackTable frameTable funcTable.length
    defaultCategory hwf stackTable.length le_rfl).1
  exact ⟨h.lenParent, h.lenFunc, h.lenDepth, h.rowOK⟩

/-- No two rows of the builder's output share the same (parent, func) pair. -/
theorem getCallNodeInfo_uniqueParentFunc (stackTable : StackTable)
    (frameTable : FrameTable) (funcTable : FuncTable) (defaultCategory : Int)
    (hwf : WFStackTable stackTable) :
    UniqueParentFunc
      (getCallNodeInfo stackTable frameTable funcTable defaultCategory).table := by
  intro i j hi hj hp hf
  unfold getCallNodeInfo at hi hj hp hf
  have h1 := buildInvMap_fold stackTable frameTable funcTable.length
    defaultCategory hwf stackTable.length le_rfl i hi
  have h2 := buildInvMap_fold stackTable frameTable funcTable.length
    defaultCategory hwf stackTable.length le_rfl j hj
  rw [hp, hf] at h1
  rw [h1] at h2
  exact Option.some.inj h2

theorem find?_range'_unique (pred : Nat → Bool) (n : Nat) :
    ∀ len s, s ≤ n → n < s + len → pred n = true →
      (∀ j, s ≤ j → j < s + len → pred j = true → j = n) →
      (List.range' s len).find? pred = some n := by
  intro len
  induction len with
  | zero => intro s hs hn _ _; omega
  | succ len ih =>
      intro s hs hn hp huniq
      rw [List.range'_succ]
      cases hps : pred s with
      | true =>
          rw [List.find?_cons_of_pos _ hps]
          have hsn : s = n := huniq s le_rfl (by omega) hps
          rw [hsn]
      | false =>
          rw [List.find?_cons_of_neg]
          · apply ih (s + 1)
            · have hne : s ≠ n := by
                intro h; rw [h, hp] at hps; cases hps
              omega
            · omega
            · exact hp
            · intro j hj1 hj2 hjp
              exact huniq j (by omega) (by omega) hjp
          · simp [hps]

theorem getCallNodeIndexFromParentAndFunc_eq_some (t : CallNodeTable)
    (p : Int) (f : Nat) (n : Nat) (hn : n < t.length)
    (hp : t.parent.getD n 0 = p) (hf : t.func.getD n 0 = f)
    (hstart : (p + 1).toNat ≤ n)
    (huniq : ∀ j, j < t.length → t.parent.getD j 0 = p →
      t.func.getD j 0 = f → j = n) :
    getCallNodeIndexFromParentAndFunc p f t = some n := by
  unfold getCallNodeIndexFromParentAndFunc
  apply find?_range'_unique _ n _ _ hstart
  · omega
  · simp only [Bool.and_eq_true, decide_eq_true_eq]
    exact ⟨hp, hf⟩
  · intro j _ hj2 hjp
    simp only [Bool.and_eq_true, decide_eq_true_eq] at hjp
    exact huniq j (by omega) hjp.1 hjp.2

theorem resolveCallNodePathFrom_append (t : CallNodeTable) (xs ys : List Nat) :
    ∀ i : Int,
      resolveCallNodePathFrom t i (xs ++ ys) =
        match resolveCallNodePathFrom t i xs with
        | none => none
        | some j => resolveCallNodePathFrom t j ys := by
  induction xs with
  | nil => intro i; simp [resolveCallNodePathFrom]
  | cons f rest ih =>
      intro i
      simp only [List.cons_append, resolveCallNodePathFrom]
      cases hsc : getCallNodeIndexFromParentAndFunc i f t with
      | none => rfl
      | some next => exact ih next

theorem getCallNodePathFromIndexGo_negOne (t : CallNodeTable) :
    ∀ fuel, getCallNodePathFromIndexGo t fuel (-1) = [] := by
  intro fuel
  cases fuel <;> simp [getCallNodePathFromIndexGo]

theorem resolve_path_go (t : CallNodeTable) (hwf : WFCallNodeTable t)
    (huniq : UniqueParentFunc t) :
    ∀ n, n < t.length → ∀ fuel, n + 1 ≤ fuel →
      resolveCallNodePathFrom t (-1)
        (getCallNodePathFromIndexGo t fuel (n : Int)) = some (n : Int) := by
  intro n
  induction n using Nat.strong_induction_on with
  | _ n ih =>
    intro hn fuel hfuel
    obtain ⟨fuel, rfl⟩ : ∃ f, fuel = f + 1 := ⟨fuel - 1, by omega⟩
    have hne : ((n : Nat) : Int) ≠ -1 := by omega
    simp only [getCallNodePathFromIndexGo, if_neg hne]
    have htn : ((n : Int)).toNat = n := by omega
    rw [htn]
    have hrow := hwf.rowOK n hn
    by_cases hp : t.parent.getD n 0 = -1
    · rw [hp, getCallNodePathFromIndexGo_negOne]
      simp only [List.nil_append, resolveCallNodePathFrom]
      have hscan : getCallNodeIndexFromParentAndFunc (-1) (t.func.getD n 0) t
          = some n := by
        apply getCallNodeIndexFromParentAndFunc_eq_some t _ _ n hn hp rfl
        · simp
        · intro j hj hjp hjf
          exact huniq j n hj hn (by rw [hjp, hp]) (by rw [hjf])
      rw [hscan]
    · obtain ⟨h0, hlt, _⟩ := hrow.2 hp
      have hplt : (t.parent.getD n 0).toNat < n := by omega
      have hptn : (((t.parent.getD n 0).toNat : Nat) : Int)
          = t.parent.getD n 0 := Int.toNat_of_nonneg h0
      rw [show t.parent.getD n 0 = (((t.parent.getD n 0).toNat : Nat) : Int)
        from hptn.symm]
      rw [resolveCallNodePathFrom_append]
      rw [ih (t.parent.getD n 0).toNat hplt (by omega) fuel (by omega)]
      simp only [resolveCallNodePathFrom]
      have hscan : getCallNodeIndexFromParentAndFunc
          (((t.parent.getD n 0).toNat : Nat) : Int) (t.func.getD n 0) t
          = some n := by
        apply getCallNodeIndexFromParentAndFunc_eq_some t _ _ n hn
          (by rw [hptn]) rfl
        · omega
        · intro j hj hjp hjf
          refine huniq j n hj hn ?_ (by rw [hjf])
          rw [hjp, hptn]
      rw [hscan]

/-- C2: resolving the path of any call node of a builder-produced table back
through `getCallNodeIndexFromPath` returns the same call-node index. -/
theorem callNodePath_roundTrip (stackTable : StackTable)
    (frameTable : FrameTable) (funcTable : FuncTable) (defaultCategory : Int)
    (hwf : WFStackTable stackTable) (n : Nat)
    (hn : n < (getCallNodeInfo stackTable frameTable funcTable
      defaultCategory).table.length) :
    getCallNodeIndexFromPath
      (getCallNodePathFromIndex (some n)
        (getCallNodeInfo stackTable frameTable funcTable defaultCategory).table)
      (getCallNodeInfo stackTable frameTable funcTable defaultCategory).table
      = some n := by
  have hwft := getCallNodeInfo_wfTable stackTable frameTable funcTable
    defaultCategory hwf
  have huniq := getCallNodeInfo_uniqueParentFunc stackTable frameTable
    funcTable defaultCategory hwf
  have h := resolve_path_go _ hwft huniq n hn (n + 1) le_rfl
  unfold getCallNodeIndexFromPath getCallNodePathFromIndex
  rw [h]
  simp

/-- Witness for C2 at a concrete input. -/
theorem callNodePath_roundTrip_witness :
    getCallNodeIndexFromPath
      (getCallNodePathFromIndex (some 1)
        (getCallNodeInfo exStackTable exFrameTable exFuncTable 0).table)
      (getCallNodeInfo exStackTable exFrameTable exFuncTable 0).table
      = some 1 :=
  callNodePath_roundTrip exStackTable exFrameTable exFuncTable 0 (by decide) 1
    (by decide)

/-!  ### Samples, allocations, threads and the time-range filter -/

/-- `SamplesTable`: times, (nullable) stacks, optional weight column and the
optional `eventDelay` / `responsiveness` / `threadCPUDelta` columns. -/
structure SamplesTable where
  time : List Int
  stack : List (Option Nat)
  weight : Option (List Int)
  weightType : String
  eventDelay : Option (List (Option Int))
  responsiveness : Option (List (Option Int))
  threadCPUDelta : Option (List Int)
  length : Nat
deriving DecidableEq

structure JsAllocationsTable where
  time : List Int
  className : List String
  typeName : List String
  coarseType : List String
  weight : List Int
  weightType : String
  inNursery : List Bool
  stack : List (Option Nat)
  length : Nat
deriving DecidableEq

/-- `NativeAllocationsTable`: the balanced variant carries `memoryAddress`
and `threadId` columns (`some`), the unbalanced variant does not (`none`). -/
structure NativeAllocationsTable where
  time : List Int
  weight : List Int
  weightType : String
  stack : List (Option Nat)
  memoryAddress : Option (List Int)
  threadId : Option (List Int)
  length : Nat
deriving DecidableEq

/-- A profile category: name and subcategory names. -/
structure Category where
  name : String
  subcategories : List String
deriving DecidableEq

/-- The slice of a thread used by the embedded functions. `stringTable` is
the `UniqueStringArray`, embedded as its backing string list. -/
structure Thread where
  stackTable : StackTable
  frameTable : FrameTable
  funcTable : FuncTable
  stringTable : List String
  samples : SamplesTable
  jsAllocations : Option JsAllocationsTable
  nativeAllocations : Option NativeAllocationsTable
deriving DecidableEq

/-- JS `Array.prototype.slice(b, e)` for in-range `b`. -/
def jsSlice {α : Type} (l : List α) (b e : Nat) : List α :=
  (l.drop b).take (e - b)

/-- Modelled from the spec: the source imports `bisectionLeft` from
`firefox-profiler/utils/bisect`, which is not among the provided sources; the
spec describes it as "binary-search (leftmost position)".  This is the
textbook leftmost binary search on `[lo, hi)` with explicit fuel (the search
halves the interval, so `a.length + 1` fuel always suffices). -/
def bisectionLeftGo (a : List Int) (x : Int) : Nat → Nat → Nat → Nat
  | 0, lo, _ => lo
  | fuel + 1, lo, hi =>
      if lo < hi then
        let mid := (lo + hi) / 2
        if a.getD mid 0 < x then bisectionLeftGo a x fuel (mid + 1) hi
        else bisectionLeftGo a x fuel lo mid
      else lo

/-- Modelled from the spec: `bisectionLeft(array, x, low)` — the leftmost
position in `[low, array.length)` at which `x` could be inserted keeping the
array sorted. -/
def bisectionLeft (a : List Int) (x : Int) (lo : Nat) : Nat :=
  bisectionLeftGo a x (a.length + 1) lo a.length

/-- `getSampleIndexRangeForSelection`: the half-open index range
`[bisectionLeft(time, rangeStart), bisectionLeft(time, rangeEnd, start))`. -/
def getSampleIndexRangeForSelection (time : List Int)
    (rangeStart rangeEnd : Int) : Nat × Nat :=
  let sampleStart := bisectionLeft time rangeStart 0
  let sampleEnd := bisectionLeft time rangeEnd sampleStart
  (sampleStart, sampleEnd)

/-- `filterThreadSamplesToRange`: slice every parallel column of the samples
table (and of the allocation tables) to the selected index range. -/
def filterThreadSamplesToRange (thread : Thread) (rangeStart rangeEnd : Int) :
    Thread :=
  let r := getSampleIndexRangeForSelection thread.samples.time rangeStart
    rangeEnd
  let b := r.1
  let e := r.2
  let samples := thread.samples
  let newSamples : SamplesTable :=
    { length := e - b
      time := jsSlice samples.time b e
      weight := samples.weight.map (fun w => jsSlice w b e)
      weightType := samples.weightType
      stack := jsSlice samples.stack b e
      eventDelay := samples.eventDelay.map (fun l => jsSlice l b e)
      responsiveness :=
        match samples.eventDelay with
        | some _ => none
        | none => samples.responsiveness.map (fun l => jsSlice l b e)
      threadCPUDelta := samples.threadCPUDelta.map (fun l => jsSlice l b e) }
  let newThread : Thread := { thread with samples := newSamples }
  let newThread : Thread :=
    match thread.jsAllocations with
    | none => newThread
    | some ja =>
        let ra := getSampleIndexRangeForSelection ja.time rangeStart rangeEnd
        { newThread with jsAllocations := some (
          { time := jsSlice ja.time ra.1 ra.2
            className := jsSlice ja.className ra.1 ra.2
            typeName := jsSlice ja.typeName ra.1 ra.2
            coarseType := jsSlice ja.coarseType ra.1 ra.2
            weight := jsSlice ja.weight ra.1 ra.2
            weightType := ja.weightType
            inNursery := jsSlice ja.inNursery ra.1 ra.2
            stack := jsSlice ja.stack ra.1 ra.2
            length := ra.2 - ra.1 } : JsAllocationsTable) }
  match thread.nativeAllocations with
  | none => newThread
  | some na =>
      let rn := getSampleIndexRangeForSelection na.time rangeStart rangeEnd
      { newThread with nativeAllocations := some (
        { time := jsSlice na.time rn.1 rn.2
          weight := jsSlice na.weight rn.1 rn.2
          weightType := na.weightType
          stack := jsSlice na.stack rn.1 rn.2
          memoryAddress := na.memoryAddress.map (fun l => jsSlice l rn.1 rn.2)
          threadId := na.threadId.map (fun l => jsSlice l rn.1 rn.2)
          length := rn.2 - rn.1 } : NativeAllocationsTable) }

/-- The leftmost-insertion-point characterization for a sorted array. -/
def IsLeftBoundary (a : List Int) (x : Int) (r : Nat) : Prop :=
  r ≤ a.length ∧ (∀ i, i < r → a.getD i 0 < x) ∧
  (∀ i, r ≤ i → i < a.length → ¬ a.getD i 0 < x)

theorem pairwise_getD_mono (l : List Int) (hl : l.Pairwise (· ≤ ·)) :
    ∀ i j, i ≤ j → j < l.length → l.getD i 0 ≤ l.getD j 0 := by
  intro i j hij hj
  rcases Nat.eq_or_lt_of_le hij with h | h
  · subst h; exact le_refl _
  · have hr := (List.pairwise_iff_getElem.mp hl) i j (by omega) hj h
    rw [List.getD_eq_getElem?_getD, List.getD_eq_getElem?_getD,
      List.getElem?_eq_getElem (by omega : i < l.length),
      List.getElem?_eq_getElem hj]
    simpa using hr

theorem bisectionLeftGo_boundary (a : List Int) (x : Int)
    (hmono : ∀ i j, i ≤ j → j < a.length → a.getD i 0 ≤ a.getD j 0) :
    ∀ fuel lo hi, lo ≤ hi → hi ≤ a.length → hi - lo < fuel →
      (∀ i, i < lo → a.getD i 0 < x) →
      (∀ i, hi ≤ i → i < a.length → ¬ a.getD i 0 < x) →
      IsLeftBoundary a x (bisectionLeftGo a x fuel lo hi) := by
  intro fuel
  induction fuel with
  | zero => intro lo hi _ _ h3 _ _; omega
  | succ fuel ih =>
      intro lo hi hlohi hhi hfuel hlow hhigh
      simp only [bisectionLeftGo]
      by_cases hlt : lo < hi
      · rw [if_pos hlt]
        by_cases hmid : a.getD ((lo + hi) / 2) 0 < x
        · rw [if_pos hmid]
          apply ih
          · omega
          · exact hhi
          · omega
          · intro i hi2
            exact lt_of_le_of_lt
              (hmono i ((lo + hi) / 2) (by omega) (by omega)) hmid
          · exact hhigh
        · rw [if_neg hmid]
          apply ih
          · omega
          · omega
          · omega
          · exact hlow
          · intro i hi2 hi3 hcon
            exact hmid (lt_of_le_of_lt (hmono ((lo + hi) / 2) i hi2 hi3) hcon)
      · rw [if_neg hlt]
        have heq : lo = hi := by omega
        exact ⟨by omega, hlow, by rw [heq]; exact hhigh⟩

theorem bisectionLeft_boundary (a : List Int) (x : Int)
    (hmono : ∀ i j, i ≤ j → j < a.length → a.getD i 0 ≤ a.getD j 0)
    (lo : Nat) (hlo : lo ≤ a.length)
    (hlow : ∀ i, i < lo → a.getD i 0 < x) :
    IsLeftBoundary a x (bisectionLeft a x lo) :=
  bisectionLeftGo_boundary a x hmono (a.length + 1) lo a.length hlo le_rfl
    (by omega) hlow (fun i h1 h2 => absurd (lt_of_le_of_lt h1 h2) (lt_irrefl _))

theorem isLeftBoundary_unique (a : List Int) (x : Int) (r1 r2 : Nat)
    (h1 : IsLeftBoundary a x r1) (h2 : IsLeftBoundary a x r2) : r1 = r2 := by
  obtain ⟨l1, p1, q1⟩ := h1
  obtain ⟨l2, p2, q2⟩ := h2
  by_contra hne
  rcases Nat.lt_or_ge r1 r2 with h | h
  · exact q1 r1 le_rfl (by omega) (p2 r1 h)
  · have h3 : r2 < r1 := by omega
    exact q2 r2 le_rfl (by omega) (p1 r2 h3)

theorem takeWhile_getD_props (p : Int → Bool) :
    ∀ l : List Int,
      (l.takeWhile p).length ≤ l.length ∧
      (∀ i, i < (l.takeWhile p).length → p (l.getD i 0) = true) ∧
      ((l.takeWhile p).length < l.length →
        p (l.getD (l.takeWhile p).length 0) = false) := by
  intro l
  induction l with
  | nil =>
      refine ⟨by simp, ?_, ?_⟩
      · intro i hi; simp at hi
      · intro h; simp at h
  | cons c tl ih =>
      obtain ⟨ih1, ih2, ih3⟩ := ih
      cases hpc : p c with
      | true =>
          rw [List.takeWhile_cons_of_pos hpc]
          refine ⟨by simpa using ih1, ?_, ?_⟩
          · intro i hi
            cases i with
            | zero => simpa using hpc
            | succ i =>
                rw [List.getD_cons_succ]
                exact ih2 i (by simpa using hi)
          · intro h
            rw [List.length_cons, List.getD_cons_succ]
            exact ih3 (by simpa using h)
      | false =>
          rw [List.takeWhile_cons_of_neg (by simp [hpc])]
          refine ⟨by simp, ?_, ?_⟩
          · intro i hi; simp at hi
          · intro _; simpa using hpc

theorem takeWhile_isLeftBoundary (a : List Int) (x : Int)
    (hmono : ∀ i j, i ≤ j → j < a.length → a.getD i 0 ≤ a.getD j 0) :
    IsLeftBoundary a x ((a.takeWhile (fun t => decide (t < x))).length) := by
  obtain ⟨hle, hin, hout⟩ := takeWhile_getD_props (fun t => decide (t < x)) a
  refine ⟨hle, ?_, ?_⟩
  · intro i hi
    have := hin i hi
    simpa using this
  · intro i hge hlen hcon
    have h1 := hout (by omega)
    simp only [decide_eq_false_iff_not, not_lt] at h1
    exact absurd (lt_of_le_of_lt (hmono _ i hge hlen) hcon) (not_lt.mpr h1)

theorem filter_lt_eq_takeWhile (e2 : Int) :
    ∀ l : List Int, l.Pairwise (· ≤ ·) →
      l.filter (fun t => decide (t < e2)) =
        l.takeWhile (fun t => decide (t < e2)) := by
  intro l
  induction l with
  | nil => intro _; rfl
  | cons c tl ih =>
      intro hpw
      rw [List.pairwise_cons] at hpw
      obtain ⟨hrel, htl⟩ := hpw
      by_cases hc : c < e2
      · rw [List.filter_cons_of_pos (by simpa using hc),
          List.takeWhile_cons_of_pos (by simpa using hc), ih htl]
      · rw [List.filter_cons_of_neg (by simpa using hc),
          List.takeWhile_cons_of_neg (by simpa using hc)]
        apply List.filter_eq_nil_iff.mpr
        intro y hy
        have h1 : c ≤ y := hrel y hy
        simp only [decide_eq_true_eq]
        omega

theorem jsSlice_tw_filter (s e2 : Int) (hse : s ≤ e2) :
    ∀ l : List Int, l.Pairwise (· ≤ ·) →
      jsSlice l ((l.takeWhile (fun t => decide (t < s))).length)
        ((l.takeWhile (fun t => decide (t < e2))).length)
        = l.filter (fun t => decide (s ≤ t) && decide (t < e2)) := by
  intro l
  induction l with
  | nil => intro _; rfl
  | cons c tl ih =>
      intro hpw
      rw [List.pairwise_cons] at hpw
      obtain ⟨hrel, htl⟩ := hpw
      by_cases hcs : c < s
      · have hce : c < e2 := lt_of_lt_of_le hcs hse
        rw [List.takeWhile_cons_of_pos (by simpa using hcs),
          List.takeWhile_cons_of_pos (by simpa using hce),
          List.filter_cons_of_neg (by simp; omega)]
        simp only [List.length_cons]
        have hslice : jsSlice (c :: tl)
            ((tl.takeWhile (fun t => decide (t < s))).length + 1)
            ((tl.takeWhile (fun t => decide (t < e2))).length + 1)
            = jsSlice tl ((tl.takeWhile (fun t => decide (t < s))).length)
                ((tl.takeWhile (fun t => decide (t < e2))).length) := by
          simp [jsSlice, Nat.succ_sub_succ]
        rw [hslice]
        exact ih htl
      · by_cases hce : c < e2
        · rw [List.takeWhile_cons_of_neg (by simpa using hcs),
            List.takeWhile_cons_of_pos (by simpa using hce),
            List.filter_cons_of_pos (by simp; omega)]
          simp only [List.length_nil, List.length_cons]
          have h1 : tl.filter (fun t => decide (s ≤ t) && decide (t < e2))
              = tl.filter (fun t => decide (t < e2)) := by
            apply List.filter_congr
            intro y hy
            have h2 : c ≤ y := hrel y hy
            simp only [Bool.and_eq_true, decide_eq_true_eq,
              Bool.and_iff_right_iff_imp, decide_eq_true_eq]
            intro _
            omega
          have h2 := filter_lt_eq_takeWhile e2 tl htl
          have h3 : tl.take ((tl.takeWhile (fun t => decide (t < e2))).length)
              = tl.takeWhile (fun t => decide (t < e2)) :=
            (List.prefix_iff_eq_take.mp (List.takeWhile_prefix _)).symm
          have h4 : jsSlice (c :: tl) 0
              ((tl.takeWhile (fun t => decide (t < e2))).length + 1)
              = c :: tl.take ((tl.takeWhile (fun t => decide (t < e2))).length)
              := by
            simp [jsSlice]
          rw [h4, h1, h2, h3]
        · rw [List.takeWhile_cons_of_neg (by simpa using hcs),
            List.takeWhile_cons_of_neg (by simpa using hce),
            List.filter_cons_of_neg (by simp; omega)]
          have h4 : jsSlice (c :: tl) ([] : List Int).length
              ([] : List Int).length = ([] : List Int) := by
            simp [jsSlice]
          rw [h4]
          symm
          apply List.filter_eq_nil_iff.mpr
          intro y hy
          have h2 : c ≤ y := hrel y hy
          simp only [Bool.and_eq_true, decide_eq_true_eq, not_and]
          intro _
          omega

theorem filterThreadSamplesToRange_samples (thread : Thread)
    (rangeStart rangeEnd : Int) :
    (filterThreadSamplesToRange thread rangeStart rangeEnd).samples =
      { length := (getSampleIndexRangeForSelection thread.samples.time
            rangeStart rangeEnd).2 -
          (getSampleIndexRangeForSelection thread.samples.time rangeStart
            rangeEnd).1
        time := jsSlice thread.samples.time
          (getSampleIndexRangeForSelection thread.samples.time rangeStart
            rangeEnd).1
          (getSampleIndexRangeForSelection thread.samples.time rangeStart
            rangeEnd).2
        weight := thread.samples.weight.map (fun w => jsSlice w
          (getSampleIndexRangeForSelection thread.samples.time rangeStart
            rangeEnd).1
          (getSampleIndexRangeForSelection thread.samples.time rangeStart
            rangeEnd).2)
        weightType := thread.samples.weightType
        stack := jsSlice thread.samples.stack
          (getSampleIndexRangeForSelection thread.samples.time rangeStart
            rangeEnd).1
          (getSampleIndexRangeForSelection thread.samples.time rangeStart
            rangeEnd).2
        eventDelay := thread.samples.eventDelay.map (fun l => jsSlice l
          (getSampleIndexRangeForSelection thread.samples.time rangeStart
            rangeEnd).1
          (getSampleIndexRangeForSelection thread.samples.time rangeStart
            rangeEnd).2)
        responsiveness :=
          match thread.samples.eventDelay with
          | some _ => none
          | none => thread.samples.responsiveness.map (fun l => jsSlice l
              (getSampleIndexRangeForSelection thread.samples.time rangeStart
                rangeEnd).1
              (getSampleIndexRangeForSelection thread.samples.time rangeStart
                rangeEnd).2)
        threadCPUDelta := thread.samples.threadCPUDelta.map (fun l => jsSlice l
          (getSampleIndexRangeForSelection thread.samples.time rangeStart
            rangeEnd).1
          (getSampleIndexRangeForSelection thread.samples.time rangeStart
            rangeEnd).2) } := by
  unfold filterThreadSamplesToRange
  cases thread.jsAllocations <;> cases thread.nativeAllocations <;> rfl

/-- C6: the time-range filter keeps exactly the half-open interval
`[rangeStart, rangeEnd)`: on a time-sorted samples table the new `time`
column is the filter of the old one by `rangeStart ≤ t < rangeEnd` (so a
sample at `rangeStart` is kept and one at `rangeEnd` is dropped), and all
parallel sample columns are sliced to the same index range. -/
theorem rangeFilter_halfOpen (thread : Thread) (rangeStart rangeEnd : Int)
    (hsort : thread.samples.time.Pairwise (· ≤ ·))
    (hse : rangeStart ≤ rangeEnd) :
    (filterThreadSamplesToRange thread rangeStart rangeEnd).samples.time =
      thread.samples.time.filter
        (fun t => decide (rangeStart ≤ t) && decide (t < rangeEnd)) ∧
    (∀ t : Int,
      t ∈ (filterThreadSamplesToRange thread rangeStart rangeEnd).samples.time
        ↔ (t ∈ thread.samples.time ∧ rangeStart ≤ t ∧ t < rangeEnd)) ∧
    (filterThreadSamplesToRange thread rangeStart rangeEnd).samples.stack =
      jsSlice thread.samples.stack
        (getSampleIndexRangeForSelection thread.samples.time rangeStart
          rangeEnd).1
        (getSampleIndexRangeForSelection thread.samples.time rangeStart
          rangeEnd).2 ∧
    (filterThreadSamplesToRange thread rangeStart rangeEnd).samples.weight =
      thread.samples.weight.map (fun w => jsSlice w
        (getSampleIndexRangeForSelection thread.samples.time rangeStart
          rangeEnd).1
        (getSampleIndexRangeForSelection thread.samples.time rangeStart
          rangeEnd).2) ∧
    (filterThreadSamplesToRange thread rangeStart rangeEnd).samples.length =
      (getSampleIndexRangeForSelection thread.samples.time rangeStart
        rangeEnd).2 -
      (getSampleIndexRangeForSelection thread.samples.time rangeStart
        rangeEnd).1 := by
  have hmono := pairwise_getD_mono _ hsort
  have hr : getSampleIndexRangeForSelection thread.samples.time rangeStart
      rangeEnd =
      (bisectionLeft thread.samples.time rangeStart 0,
       bisectionLeft thread.samples.time rangeEnd
         (bisectionLeft thread.samples.time rangeStart 0)) := rfl
  have hb : IsLeftBoundary thread.samples.time rangeStart
      (bisectionLeft thread.samples.time rangeStart 0) :=
    bisectionLeft_boundary _ _ hmono 0 (by omega)
      (fun i h => absurd h (Nat.not_lt_zero i))
  have hbtw : bisectionLeft thread.samples.time rangeStart 0 =
      ((thread.samples.time.takeWhile
        (fun t => decide (t < rangeStart))).length) :=
    isLeftBoundary_unique _ _ _ _ hb
      (takeWhile_isLeftBoundary _ _ hmono)
  have he : IsLeftBoundary thread.samples.time rangeEnd
      (bisectionLeft thread.samples.time rangeEnd
        (bisectionLeft thread.samples.time rangeStart 0)) :=
    bisectionLeft_boundary _ _ hmono _ hb.1
      (fun i h => lt_of_lt_of_le (hb.2.1 i h) hse)
  have hetw : bisectionLeft thread.samples.time rangeEnd
      (bisectionLeft thread.samples.time rangeStart 0) =
      ((thread.samples.time.takeWhile
        (fun t => decide (t < rangeEnd))).length) :=
    isLeftBoundary_unique _ _ _ _ he
      (takeWhile_isLeftBoundary _ _ hmono)
  have htime : (filterThreadSamplesToRange thread rangeStart
      rangeEnd).samples.time =
      thread.samples.time.filter
        (fun t => decide (rangeStart ≤ t) && decide (t < rangeEnd)) := by
    rw [filterThreadSamplesToRange_samples]
    show jsSlice thread.samples.time
      (getSampleIndexRangeForSelection thread.samples.time rangeStart
        rangeEnd).1
      (getSampleIndexRangeForSelection thread.samples.time rangeStart
        rangeEnd).2 = _
    rw [hr]
    show jsSlice thread.samples.time
      (bisectionLeft thread.samples.time rangeStart 0)
      (bisectionLeft thread.samples.time rangeEnd
        (bisectionLeft thread.samples.time rangeStart 0)) = _
    rw [hetw, hbtw]
    exact jsSlice_tw_filter rangeStart rangeEnd hse thread.samples.time hsort
  refine ⟨htime, ?_, ?_, ?_, ?_⟩
  · intro t
    rw [htime]
    simp [List.mem_filter]
  · rw [filterThreadSamplesToRange_samples]
  · rw [filterThreadSamplesToRange_samples]
  · rw [filterThreadSamplesToRange_samples]

/-- A one-thread example for the range filter: sample times `[0, 5, 10, 15]`. -/
def exRangeThread : Thread :=
  ⟨⟨[], [], [], [], 0⟩, ⟨[], [], [], 0⟩, ⟨[], 0⟩, [],
    ⟨[0, 5, 10, 15], [some 0, some 1, some 2, some 3], none, "samples",
      none, none, none, 4⟩,
    none, none⟩

/-- Witness for C6: filtering times `[0, 5, 10, 15]` to `[5, 15)` keeps
exactly `[5, 10]`, and the parallel stack column is sliced identically. -/
theorem rangeFilter_halfOpen_witness :
    (filterThreadSamplesToRange exRangeThread 5 15).samples.time = [5, 10] ∧
    (filterThreadSamplesToRange exRangeThread 5 15).samples.stack =
      [some 1, some 2] ∧
    (filterThreadSamplesToRange exRangeThread 5 15).samples.length = 2 := by
  have h := rangeFilter_halfOpen exRangeThread 5 15 (by decide) (by decide)
  refine ⟨?_, ?_, ?_⟩
  · rw [h.1]; decide
  · rw [h.2.2.1]; decide
  · rw [h.2.2.2.2]; decide

/-!  ### Tree-order comparator -/

/-- The two alignment loops of `compareCallNodes`: walk a node toward the
root until its depth drops to `target`. -/
def walkToDepth (t : CallNodeTable) : Nat → Int → Nat → Nat → Int
  | 0, node, _, _ => node
  | fuel + 1, node, d, target =>
      if target < d then
        walkToDepth t fuel (t.parent.getD node.toNat 0) (d - 1) target
      else node

/-- The final loop of `compareCallNodes`: walk both (equal-depth) nodes
toward the root in lock step until their parents agree, then order by the
numeric index of the two sibling children just visited. -/
def compareAncestorsLoop (t : CallNodeTable) : Nat → Int → Int → Int
  | 0, a, b => a - b
  | fuel + 1, a, b =>
      let parentA := t.parent.getD a.toNat 0
      let parentB := t.parent.getD b.toNat 0
      if parentA = parentB then a - b
      else compareAncestorsLoop t fuel parentA parentB

/-- `compareCallNodes`: align both call nodes to the smaller depth; if they
then coincide, order by original depth (ancestors before descendants),
otherwise run the lock-step loop.  The fuel arguments cover the loops'
maximal trip counts for a well-formed table. -/
def compareCallNodes (t : CallNodeTable) (callNodeA callNodeB : Nat) : Int :=
  let initialDepthA := t.depth.getD callNodeA 0
  let initialDepthB := t.depth.getD callNodeB 0
  let a := walkToDepth t initialDepthA (callNodeA : Int) initialDepthA
    (min initialDepthA initialDepthB)
  let b := walkToDepth t initialDepthB (callNodeB : Int) initialDepthB
    (min initialDepthA initialDepthB)
  if a = b then (initialDepthA : Int) - (initialDepthB : Int)
  else compareAncestorsLoop t (min initialDepthA initialDepthB + 1) a b

/-- `treeOrderComparator` over two sample indices: samples with a `null`
call node sort after all others; two nulls are equal. -/
def treeOrderComparator (t : CallNodeTable)
    (sampleCallNodes : List (Option Nat)) (sampleA sampleB : Nat) : Int :=
  match sampleCallNodes.getD sampleA none, sampleCallNodes.getD sampleB none with
  | none, none => 0
  | none, some _ => 1
  | some _, none => -1
  | some a, some b => compareCallNodes t a b

/-- The chain of call-node indices from the root down to `node` (specified
from the `depth`/`prefix` invariant; used only in proofs). -/
def ancestorPathGo (t : CallNodeTable) : Nat → Int → List Int
  | 0, _ => []
  | fuel + 1, node =>
      if node < 0 then []
      else ancestorPathGo t fuel (t.parent.getD node.toNat 0) ++ [node]

def ancestorPath (t : CallNodeTable) (n : Nat) : List Int :=
  ancestorPathGo t (t.depth.getD n 0 + 1) (n : Int)

/-- Sequence (lexicographic, shorter-prefix-first) comparison of two index
chains; at the first difference it returns the difference of the entries. -/
def pathSeqCmp : List Int → List Int → Int
  | [], [] => 0
  | [], _ :: _ => -1
  | _ :: _, [] => 1
  | x :: xs, y :: ys => if x = y then pathSeqCmp xs ys else x - y

theorem pathSeqCmp_self : ∀ x : List Int, pathSeqCmp x x = 0 := by
  intro x
  induction x with
  | nil => rfl
  | cons a xs ih => simp [pathSeqCmp, ih]

theorem pathSeqCmp_eq_zero_iff : ∀ x y : List Int, pathSeqCmp x y = 0 ↔ x = y := by
  intro x
  induction x with
  | nil =>
      intro y
      cases y with
      | nil => simp [pathSeqCmp]
      | cons b ys => simp [pathSeqCmp]
  | cons a xs ih =>
      intro y
      cases y with
      | nil => simp [pathSeqCmp]
      | cons b ys =>
          by_cases hab : a = b
          · subst hab
            simp [pathSeqCmp, ih ys]
          · simp only [pathSeqCmp, if_neg hab, List.cons.injEq]
            constructor
            · intro h; exfalso; omega
            · intro h; exact absurd h.1 hab

theorem pathSeqCmp_antisym : ∀ x y : List Int,
    pathSeqCmp x y = - pathSeqCmp y x := by
  intro x
  induction x with
  | nil => intro y; cases y <;> simp [pathSeqCmp]
  | cons a xs ih =>
      intro y
      cases y with
      | nil => simp [pathSeqCmp]
      | cons b ys =>
          by_cases hab : a = b
          · subst hab; simp [pathSeqCmp, ih ys]
          · simp only [pathSeqCmp, if_neg hab, if_neg (Ne.symm hab)]
            omega

theorem pathSeqCmp_trans_neg : ∀ x y z : List Int,
    pathSeqCmp x y < 0 → pathSeqCmp y z < 0 → pathSeqCmp x z < 0 := by
  intro x
  induction x with
  | nil =>
      intro y z hxy hyz
      cases y with
      | nil => simpa [pathSeqCmp] using hxy
      | cons b ys =>
          cases z with
          | nil => simp [pathSeqCmp] at hyz
          | cons c zs => simp [pathSeqCmp]
  | cons a xs ih =>
      intro y z hxy hyz
      cases y with
      | nil => simp [pathSeqCmp] at hxy
      | cons b ys =>
          cases z with
          | nil => simp [pathSeqCmp] at hyz
          | cons c zs =>
              simp only [pathSeqCmp] at hxy hyz ⊢
              by_cases hab : a = b <;> by_cases hbc : b = c
              · subst hab; subst hbc
                rw [if_pos rfl] at hxy hyz ⊢
                exact ih ys zs hxy hyz
              · subst hab
                rw [if_pos rfl] at hxy
                rw [if_neg hbc] at hyz
                rw [if_neg hbc]
                exact hyz
              · subst hbc
                rw [if_neg hab] at hxy
                rw [if_neg hab]
                exact hxy
              · rw [if_neg hab] at hxy
                rw [if_neg hbc] at hyz
                have hac : a ≠ c := by omega
                rw [if_neg hac]
                omega

theorem compareAncestorsLoop_antisym (t : CallNodeTable) :
    ∀ fuel a b, compareAncestorsLoop t fuel a b =
      - compareAncestorsLoop t fuel b a := by
  intro fuel
  induction fuel with
  | zero => intro a b; simp [compareAncestorsLoop]
  | succ fuel ih =>
      intro a b
      simp only [compareAncestorsLoop]
      by_cases h : t.parent.getD a.toNat 0 = t.parent.getD b.toNat 0
      · rw [if_pos h, if_pos h.symm]; omega
      · rw [if_neg h, if_neg (Ne.symm h)]
        exact ih _ _

theorem take_append_le {α : Type} (l1 l2 : List α) (n : Nat)
    (h : n ≤ l1.length) : (l1 ++ l2).take n = l1.take n := by
  rw [List.take_append_eq_append_take]
  have h0 : n - l1.length = 0 := by omega
  rw [h0]
  simp

theorem ancestorPathGo_neg (t : CallNodeTable) :
    ∀ fuel node, node < 0 → ancestorPathGo t fuel node = [] := by
  intro fuel node h
  cases fuel with
  | zero => rfl
  | succ fuel => simp [ancestorPathGo, h]

theorem ancestorPath_fuel (t : CallNodeTable) (hwf : WFCallNodeTable t) :
    ∀ n, n < t.length → ∀ fuel, t.depth.getD n 0 + 1 ≤ fuel →
      ancestorPathGo t fuel (n : Int) = ancestorPath t n := by
  intro n
  induction n using Nat.strong_induction_on with
  | _ n ih =>
    intro hn fuel hfuel
    obtain ⟨fuel, rfl⟩ : ∃ f, fuel = f + 1 := ⟨fuel - 1, by omega⟩
    have hnneg : ¬ ((n : Int) < 0) := by omega
    have htn : ((n : Int)).toNat = n := by omega
    unfold ancestorPath
    simp only [ancestorPathGo, if_neg hnneg, htn]
    by_cases hp : t.parent.getD n 0 = -1
    · rw [hp, ancestorPathGo_neg t fuel _ (by omega),
        ancestorPathGo_neg t _ _ (by norm_num : (-1 : Int) < 0)]
    · obtain ⟨h0, hlt, hdep⟩ := (hwf.rowOK n hn).2 hp
      have hcast : t.parent.getD n 0 = (((t.parent.getD n 0).toNat : Nat) : Int) :=
        (Int.toNat_of_nonneg h0).symm
      have hplt : (t.parent.getD n 0).toNat < n := by omega
      have hplen : (t.parent.getD n 0).toNat < t.length := by omega
      have hdp : t.depth.getD (t.parent.getD n 0).toNat 0 + 1
          = t.depth.getD n 0 := hdep
      rw [hcast, ih _ hplt hplen fuel (by omega),
        ih _ hplt hplen (t.depth.getD n 0) (by omega)]

theorem ancestorPath_unfold (t : CallNodeTable) (hwf : WFCallNodeTable t)
    (n : Nat) (hn : n < t.length) :
    ancestorPath t n =
      (if t.parent.getD n 0 = -1 then []
       else ancestorPath t (t.parent.getD n 0).toNat) ++ [(n : Int)] := by
  have hnneg : ¬ ((n : Int) < 0) := by omega
  have htn : ((n : Int)).toNat = n := by omega
  conv_lhs => unfold ancestorPath
  simp only [ancestorPathGo, if_neg hnneg, htn]
  by_cases hp : t.parent.getD n 0 = -1
  · rw [if_pos hp, hp, ancestorPathGo_neg t _ _ (by norm_num : (-1 : Int) < 0)]
  · rw [if_neg hp]
    obtain ⟨h0, hlt, hdep⟩ := (hwf.rowOK n hn).2 hp
    have hcast : t.parent.getD n 0 = (((t.parent.getD n 0).toNat : Nat) : Int) :=
      (Int.toNat_of_nonneg h0).symm
    have hplt : (t.parent.getD n 0).toNat < n := by omega
    have hplen : (t.parent.getD n 0).toNat < t.length := by omega
    rw [hcast, ancestorPath_fuel t hwf _ hplen (t.depth.getD n 0) (by omega),
      Int.toNat_natCast]

theorem ancestorPath_length (t : CallNodeTable) (hwf : WFCallNodeTable t) :
    ∀ n, n < t.length →
      (ancestorPath t n).length = t.depth.getD n 0 + 1 := by
  intro n
  induction n using Nat.strong_induction_on with
  | _ n ih =>
    intro hn
    rw [ancestorPath_unfold t hwf n hn]
    by_cases hp : t.parent.getD n 0 = -1
    · have hd := (hwf.rowOK n hn).1 hp
      rw [if_pos hp, hd]
      simp
    · rw [if_neg hp]
      obtain ⟨h0, hlt, hdep⟩ := (hwf.rowOK n hn).2 hp
      have hplt : (t.parent.getD n 0).toNat < n := by omega
      rw [List.length_append, ih _ hplt (by omega)]
      simp only [List.length_singleton]
      omega

theorem ancestorPath_inj (t : CallNodeTable) (hwf : WFCallNodeTable t)
    (m n : Nat) (hm : m < t.length) (hn : n < t.length)
    (h : ancestorPath t m = ancestorPath t n) : m = n := by
  rw [ancestorPath_unfold t hwf m hm, ancestorPath_unfold t hwf n hn] at h
  have h1 := congrArg List.getLast? h
  rw [List.getLast?_concat, List.getLast?_concat] at h1
  have h2 : ((m : Nat) : Int) = ((n : Nat) : Int) := Option.some.inj h1
  exact_mod_cast h2

theorem walkToDepth_spec (t : CallNodeTable) (hwf : WFCallNodeTable t) :
    ∀ fuel n target, n < t.length → target ≤ t.depth.getD n 0 →
      t.depth.getD n 0 - target ≤ fuel →
      ∃ m : Nat,
        walkToDepth t fuel (n : Int) (t.depth.getD n 0) target = (m : Int) ∧
        m < t.length ∧ t.depth.getD m 0 = target ∧
        ancestorPath t m = (ancestorPath t n).take (target + 1) := by
  intro fuel
  induction fuel with
  | zero =>
      intro n target hn htar hfuel
      have heq : target = t.depth.getD n 0 := by omega
      refine ⟨n, rfl, hn, heq.symm, ?_⟩
      rw [heq, ← ancestorPath_length t hwf n hn, List.take_length]
  | succ fuel ih =>
      intro n target hn htar hfuel
      by_cases hlt : target < t.depth.getD n 0
      · have hd1 : 1 ≤ t.depth.getD n 0 := by omega
        have hp : t.parent.getD n 0 ≠ -1 := by
          intro hroot
          have := (hwf.rowOK n hn).1 hroot
          omega
        obtain ⟨h0, hplt, hdep⟩ := (hwf.rowOK n hn).2 hp
        have hcast : t.parent.getD n 0
            = (((t.parent.getD n 0).toNat : Nat) : Int) :=
          (Int.toNat_of_nonneg h0).symm
        have hplen : (t.parent.getD n 0).toNat < t.length := by omega
        have htn : ((n : Int)).toNat = n := by omega
        have hstep : walkToDepth t (fuel + 1) (n : Int) (t.depth.getD n 0)
            target =
            walkToDepth t fuel (((t.parent.getD n 0).toNat : Nat) : Int)
              (t.depth.getD (t.parent.getD n 0).toNat 0) target := by
          simp only [walkToDepth, if_pos hlt, htn]
          rw [← hcast]
          congr 1
          omega
        rw [hstep]
        obtain ⟨m, hm1, hm2, hm3, hm4⟩ := ih (t.parent.getD n 0).toNat target
          hplen (by omega) (by omega)
        refine ⟨m, hm1, hm2, hm3, ?_⟩
        rw [hm4, ancestorPath_unfold t hwf n hn, if_neg hp]
        rw [take_append_le]
        rw [ancestorPath_length t hwf _ hplen]
        omega
      · have heq : target = t.depth.getD n 0 := by omega
        refine ⟨n, ?_, hn, heq.symm, ?_⟩
        · simp only [walkToDepth, if_neg hlt]
        · rw [heq, ← ancestorPath_length t hwf n hn, List.take_length]

theorem pathSeqCmp_append_same : ∀ (x : List Int) (u v : Int),
    pathSeqCmp (x ++ [u]) (x ++ [v]) = if u = v then 0 else u - v := by
  intro x
  induction x with
  | nil => intro u v; by_cases h : u = v <;> simp [pathSeqCmp, h]
  | cons a xs ih =>
      intro u v
      simp only [List.cons_append, pathSeqCmp, if_pos rfl]
      exact ih u v

theorem pathSeqCmp_append_ne : ∀ (x y : List Int),
    x.length = y.length → x ≠ y → ∀ u v : Int,
      pathSeqCmp (x ++ [u]) (y ++ [v]) = pathSeqCmp x y := by
  intro x
  induction x with
  | nil =>
      intro y hlen hne
      cases y with
      | nil => exact absurd rfl hne
      | cons b ys => simp at hlen
  | cons a xs ih =>
      intro y hlen hne
      cases y with
      | nil => simp at hlen
      | cons b ys =>
          intro u v
          by_cases hab : a = b
          · subst hab
            have hxy : xs ≠ ys := by
              intro h; exact hne (by rw [h])
            simp only [List.cons_append, pathSeqCmp, if_pos rfl]
            exact ih ys (by simpa using hlen) hxy u v
          · simp only [List.cons_append, pathSeqCmp, if_neg hab]

theorem pathSeqCmp_prefix_neg : ∀ (x y : List Int),
    x.length < y.length → x = y.take x.length → pathSeqCmp x y = -1 := by
  intro x
  induction x with
  | nil =>
      intro y hlen _
      cases y with
      | nil => simp at hlen
      | cons b ys => rfl
  | cons a xs ih =>
      intro y hlen htake
      cases y with
      | nil => simp at hlen
      | cons b ys =>
          simp only [List.length_cons, List.take_succ_cons,
            List.cons.injEq] at htake
          obtain ⟨hab, hxs⟩ := htake
          subst hab
          simp only [pathSeqCmp, if_pos rfl]
          exact ih ys (by simpa using hlen) hxs

theorem pathSeqCmp_take_ne : ∀ (n : Nat) (x y : List Int),
    x.take n ≠ y.take n → pathSeqCmp x y = pathSeqCmp (x.take n) (y.take n) := by
  intro n
  induction n with
  | zero => intro x y h; simp at h
  | succ n ih =>
      intro x y h
      cases x with
      | nil =>
          cases y with
          | nil => simp at h
          | cons b ys => rfl
      | cons a xs =>
          cases y with
          | nil => rfl
          | cons b ys =>
              simp only [List.take_succ_cons] at h ⊢
              by_cases hab : a = b
              · subst hab
                have hxy : xs.take n ≠ ys.take n := by
                  intro hcon; exact h (by rw [hcon])
                simp only [pathSeqCmp, if_pos rfl]
                exact ih xs ys hxy
              · simp only [pathSeqCmp, if_neg hab]

theorem compareAncestorsLoop_spec (t : CallNodeTable)
    (hwf : WFCallNodeTable t) :
    ∀ d fuel, d + 1 ≤ fuel → ∀ a b : Nat, a < t.length → b < t.length →
      t.depth.getD a 0 = d → t.depth.getD b 0 = d → a ≠ b →
      compareAncestorsLoop t fuel (a : Int) (b : Int) =
        pathSeqCmp (ancestorPath t a) (ancestorPath t b) := by
  intro d
  induction d with
  | zero =>
      intro fuel hfuel a b ha hb hda hdb hne
      obtain ⟨fuel, rfl⟩ : ∃ f, fuel = f + 1 := ⟨fuel - 1, by omega⟩
      have hpa : t.parent.getD a 0 = -1 := by
        by_contra hcon
        obtain ⟨_, _, hdep⟩ := (hwf.rowOK a ha).2 hcon
        omega
      have hpb : t.parent.getD b 0 = -1 := by
        by_contra hcon
        obtain ⟨_, _, hdep⟩ := (hwf.rowOK b hb).2 hcon
        omega
      have hta : ((a : Int)).toNat = a := by omega
      have htb : ((b : Int)).toNat = b := by omega
      simp only [compareAncestorsLoop, hta, htb, hpa, hpb, if_pos rfl]
      rw [ancestorPath_unfold t hwf a ha, ancestorPath_unfold t hwf b hb,
        if_pos hpa, if_pos hpb]
      simp only [List.nil_append]
      have hcast : ((a : Nat) : Int) ≠ ((b : Nat) : Int) := by
        exact_mod_cast hne
      simp [pathSeqCmp, hcast]
  | succ d ih =>
      intro fuel hfuel a b ha hb hda hdb hne
      obtain ⟨fuel, rfl⟩ : ∃ f, fuel = f + 1 := ⟨fuel - 1, by omega⟩
      have hpa : t.parent.getD a 0 ≠ -1 := by
        intro hcon
        have := (hwf.rowOK a ha).1 hcon
        omega
      have hpb : t.parent.getD b 0 ≠ -1 := by
        intro hcon
        have := (hwf.rowOK b hb).1 hcon
        omega
      obtain ⟨ha0, halt, hadep⟩ := (hwf.rowOK a ha).2 hpa
      obtain ⟨hb0, hblt, hbdep⟩ := (hwf.rowOK b hb).2 hpb
      have hta : ((a : Int)).toNat = a := by omega
      have htb : ((b : Int)).toNat = b := by omega
      have hpalen : (t.parent.getD a 0).toNat < t.length := by omega
      have hpblen : (t.parent.getD b 0).toNat < t.length := by omega
      have hpath : pathSeqCmp (ancestorPath t a) (ancestorPath t b) =
          pathSeqCmp
            (ancestorPath t (t.parent.getD a 0).toNat ++ [(a : Int)])
            (ancestorPath t (t.parent.getD b 0).toNat ++ [(b : Int)]) := by
        rw [ancestorPath_unfold t hwf a ha, ancestorPath_unfold t hwf b hb,
          if_neg hpa, if_neg hpb]
      by_cases hpp : t.parent.getD a 0 = t.parent.getD b 0
      · simp only [compareAncestorsLoop, hta, htb, if_pos hpp]
        rw [hpath, hpp, pathSeqCmp_append_same]
        have hcast : ¬ ((a : Nat) : Int) = ((b : Nat) : Int) := by
          exact_mod_cast hne
        rw [if_neg hcast]
      · simp only [compareAncestorsLoop, hta, htb, if_neg hpp]
        have hppn : (t.parent.getD a 0).toNat ≠ (t.parent.getD b 0).toNat := by
          intro hcon
          exact hpp (by omega)
        have hcasta : t.parent.getD a 0
            = (((t.parent.getD a 0).toNat : Nat) : Int) :=
          (Int.toNat_of_nonneg ha0).symm
        have hcastb : t.parent.getD b 0
            = (((t.parent.getD b 0).toNat : Nat) : Int) :=
          (Int.toNat_of_nonneg hb0).symm
        rw [hcasta, hcastb,
          ih fuel (by omega) _ _ hpalen hpblen (by omega) (by omega) hppn]
        rw [hpath, pathSeqCmp_append_ne]
        · rw [ancestorPath_length t hwf _ hpalen,
            ancestorPath_length t hwf _ hpblen]
          omega
        · intro hcon
          exact hppn (ancestorPath_inj t hwf _ _ hpalen hpblen hcon)

theorem compareCallNodes_self (t : CallNodeTable) (a : Nat) :
    compareCallNodes t a a = 0 := by
  simp [compareCallNodes]

theorem compareCallNodes_sign (t : CallNodeTable) (hwf : WFCallNodeTable t)
    (a b : Nat) (ha : a < t.length) (hb : b < t.length) :
    Int.sign (compareCallNodes t a b) =
      Int.sign (pathSeqCmp (ancestorPath t a) (ancestorPath t b)) := by
  by_cases hab : a = b
  · subst hab
    rw [compareCallNodes_self, pathSeqCmp_self]
  · obtain ⟨ma, hma1, hma2, hma3, hma4⟩ := walkToDepth_spec t hwf
      (t.depth.getD a 0) a (min (t.depth.getD a 0) (t.depth.getD b 0)) ha
      (Nat.min_le_left _ _) (by omega)
    obtain ⟨mb, hmb1, hmb2, hmb3, hmb4⟩ := walkToDepth_spec t hwf
      (t.depth.getD b 0) b (min (t.depth.getD a 0) (t.depth.getD b 0)) hb
      (Nat.min_le_right _ _) (by omega)
    simp only [compareCallNodes]
    rw [hma1, hmb1]
    by_cases hmm : ((ma : Nat) : Int) = ((mb : Nat) : Int)
    · rw [if_pos hmm]
      have hmamb : ma = mb := by exact_mod_cast hmm
      have htake : (ancestorPath t a).take
            (min (t.depth.getD a 0) (t.depth.getD b 0) + 1) =
          (ancestorPath t b).take
            (min (t.depth.getD a 0) (t.depth.getD b 0) + 1) := by
        rw [← hma4, ← hmb4, hmamb]
      have hdane : t.depth.getD a 0 ≠ t.depth.getD b 0 := by
        intro hdd
        apply hab
        apply ancestorPath_inj t hwf a b ha hb
        have l1 : (ancestorPath t a).take
            (min (t.depth.getD a 0) (t.depth.getD b 0) + 1) =
            ancestorPath t a := by
          have : min (t.depth.getD a 0) (t.depth.getD b 0) + 1 =
              (ancestorPath t a).length := by
            rw [ancestorPath_length t hwf a ha]; omega
          rw [this, List.take_length]
        have l2 : (ancestorPath t b).take
            (min (t.depth.getD a 0) (t.depth.getD b 0) + 1) =
            ancestorPath t b := by
          have : min (t.depth.getD a 0) (t.depth.getD b 0) + 1 =
              (ancestorPath t b).length := by
            rw [ancestorPath_length t hwf b hb]; omega
          rw [this, List.take_length]
        rw [← l1, ← l2, htake]
      rcases Nat.lt_or_ge (t.depth.getD a 0) (t.depth.getD b 0) with hd | hd
      · have hpfx : pathSeqCmp (ancestorPath t a) (ancestorPath t b) = -1 := by
          apply pathSeqCmp_prefix_neg
          · rw [ancestorPath_length t hwf a ha, ancestorPath_length t hwf b hb]
            omega
          · have hmin : min (t.depth.getD a 0) (t.depth.getD b 0) + 1 =
                (ancestorPath t a).length := by
              rw [ancestorPath_length t hwf a ha]; omega
            rw [← hmin]
            conv_lhs => rw [← List.take_length (ancestorPath t a), ← hmin]
            exact htake
        rw [hpfx]
        have hneg : (t.depth.getD a 0 : Int) - (t.depth.getD b 0 : Int) < 0 := by
          omega
        rw [Int.sign_eq_neg_one_of_neg hneg]
        rfl
      · have hd2 : t.depth.getD b 0 < t.depth.getD a 0 := by omega
        have hpfx : pathSeqCmp (ancestorPath t b) (ancestorPath t a) = -1 := by
          apply pathSeqCmp_prefix_neg
          · rw [ancestorPath_length t hwf a ha, ancestorPath_length t hwf b hb]
            omega
          · have hmin : min (t.depth.getD a 0) (t.depth.getD b 0) + 1 =
                (ancestorPath t b).length := by
              rw [ancestorPath_length t hwf b hb]; omega
            rw [← hmin]
            conv_lhs => rw [← List.take_length (ancestorPath t b), ← hmin]
            exact htake.symm
        have hpos : pathSeqCmp (ancestorPath t a) (ancestorPath t b) = 1 := by
          rw [pathSeqCmp_antisym, hpfx]
          rfl
        rw [hpos]
        have hposd : (0 : Int) < (t.depth.getD a 0 : Int) -
            (t.depth.getD b 0 : Int) := by omega
        rw [Int.sign_eq_one_of_pos hposd]
        rfl
    · rw [if_neg hmm]
      have hmamb : ma ≠ mb := fun h => hmm (by rw [h])
      rw [compareAncestorsLoop_spec t hwf
        (min (t.depth.getD a 0) (t.depth.getD b 0))
        (min (t.depth.getD a 0) (t.depth.getD b 0) + 1) le_rfl ma mb hma2 hmb2
        hma3 hmb3 hmamb]
      have htne : (ancestorPath t a).take
            (min (t.depth.getD a 0) (t.depth.getD b 0) + 1) ≠
          (ancestorPath t b).take
            (min (t.depth.getD a 0) (t.depth.getD b 0) + 1) := by
        rw [← hma4, ← hmb4]
        intro h
        exact hmamb (ancestorPath_inj t hwf _ _ hma2 hmb2 h)
      rw [hma4, hmb4, ← pathSeqCmp_take_ne _ _ _ htne]

theorem int_neg_of_sign_neg_one {z : Int} (h : z.sign = -1) : z < 0 := by
  rcases Int.lt_trichotomy z 0 with h1 | h1 | h1
  · exact h1
  · subst h1; simp at h
  · rw [Int.sign_eq_one_of_pos h1] at h
    exact absurd h (by decide)

theorem compareCallNodes_eq_zero_iff (t : CallNodeTable)
    (hwf : WFCallNodeTable t) (a b : Nat) (ha : a < t.length)
    (hb : b < t.length) : compareCallNodes t a b = 0 ↔ a = b := by
  constructor
  · intro h
    have hs : (compareCallNodes t a b).sign = 0 := by rw [h]; rfl
    rw [compareCallNodes_sign t hwf a b ha hb] at hs
    have hseq := Int.sign_eq_zero_iff_zero.mp hs
    have hpaths := (pathSeqCmp_eq_zero_iff _ _).mp hseq
    exact ancestorPath_inj t hwf a b ha hb hpaths
  · intro h; subst h; exact compareCallNodes_self t a

theorem treeOrderComparator_nn (t : CallNodeTable) (scn : List (Option Nat))
    (a b : Nat) (h1 : scn.getD a none = none) (h2 : scn.getD b none = none) :
    treeOrderComparator t scn a b = 0 := by
  simp only [treeOrderComparator]
  rw [h1, h2]

theorem treeOrderComparator_ns (t : CallNodeTable) (scn : List (Option Nat))
    (a b : Nat) (v : Nat) (h1 : scn.getD a none = none)
    (h2 : scn.getD b none = some v) :
    treeOrderComparator t scn a b = 1 := by
  simp only [treeOrderComparator]
  rw [h1, h2]

theorem treeOrderComparator_sn (t : CallNodeTable) (scn : List (Option Nat))
    (a b : Nat) (v : Nat) (h1 : scn.getD a none = some v)
    (h2 : scn.getD b none = none) :
    treeOrderComparator t scn a b = -1 := by
  simp only [treeOrderComparator]
  rw [h1, h2]

theorem treeOrderComparator_ss (t : CallNodeTable) (scn : List (Option Nat))
    (a b : Nat) (v w : Nat) (h1 : scn.getD a none = some v)
    (h2 : scn.getD b none = some w) :
    treeOrderComparator t scn a b = compareCallNodes t v w := by
  simp only [treeOrderComparator]
  rw [h1, h2]

/-- C7: `treeOrderComparator` is a strict weak ordering over sample indices:
reflexively zero, sign-antisymmetric, transitive in both the strict order
and the equivalence, with null-call-node samples ordered after all others
and mutually equal. -/
theorem treeOrderComparator_strictWeakOrder (t : CallNodeTable)
    (sampleCallNodes : List (Option Nat)) (hwf : WFCallNodeTable t)
    (hvalid : sampleCallNodes.all
      (fun o => match o with
        | none => true
        | some v => decide (v < t.length)) = true) :
    (∀ a, treeOrderComparator t sampleCallNodes a a = 0) ∧
    (∀ a b, (treeOrderComparator t sampleCallNodes a b).sign =
      - (treeOrderComparator t sampleCallNodes b a).sign) ∧
    (∀ a b c, treeOrderComparator t sampleCallNodes a b < 0 →
      treeOrderComparator t sampleCallNodes b c < 0 →
      treeOrderComparator t sampleCallNodes a c < 0) ∧
    (∀ a b c, treeOrderComparator t sampleCallNodes a b = 0 →
      treeOrderComparator t sampleCallNodes b c = 0 →
      treeOrderComparator t sampleCallNodes a c = 0) ∧
    (∀ a b, sampleCallNodes.getD a none ≠ none →
      sampleCallNodes.getD b none = none →
      treeOrderComparator t sampleCallNodes a b < 0 ∧
      0 < treeOrderComparator t sampleCallNodes b a) ∧
    (∀ a b, sampleCallNodes.getD a none = none →
      sampleCallNodes.getD b none = none →
      treeOrderComparator t sampleCallNodes a b = 0) := by
  have hval : ∀ i v, sampleCallNodes.getD i none = some v → v < t.length := by
    intro i v h
    by_cases hi : i < sampleCallNodes.length
    · have hmem : (some v) ∈ sampleCallNodes := by
        rw [List.getD_eq_getElem?_getD] at h
        cases hg : sampleCallNodes[i]? with
        | none => rw [hg] at h; simp at h
        | some o =>
            rw [hg] at h
            simp only [Option.getD_some] at h
            subst h
            exact List.getElem?_mem hg
      have h2 := List.all_eq_true.mp hvalid _ hmem
      simpa using h2
    · rw [List.getD_eq_getElem?_getD, List.getElem?_eq_none (by omega)] at h
      simp at h
  refine ⟨?_, ?_, ?_, ?_, ?_, ?_⟩
  · intro a
    cases h : sampleCallNodes.getD a none with
    | none => rw [treeOrderComparator_nn t _ a a h h]
    | some v =>
        rw [treeOrderComparator_ss t _ a a v v h h]
        exact compareCallNodes_self t v
  · intro a b
    cases ha : sampleCallNodes.getD a none with
    | none =>
        cases hb : sampleCallNodes.getD b none with
        | none =>
            rw [treeOrderComparator_nn t _ a b ha hb,
              treeOrderComparator_nn t _ b a hb ha]
            decide
        | some w =>
            rw [treeOrderComparator_ns t _ a b w ha hb,
              treeOrderComparator_sn t _ b a w hb ha]
            decide
    | some v =>
        cases hb : sampleCallNodes.getD b none with
        | none =>
            rw [treeOrderComparator_sn t _ a b v ha hb,
              treeOrderComparator_ns t _ b a v hb ha]
            decide
        | some w =>
            rw [treeOrderComparator_ss t _ a b v w ha hb,
              treeOrderComparator_ss t _ b a w v hb ha,
              compareCallNodes_sign t hwf v w (hval a v ha) (hval b w hb),
              compareCallNodes_sign t hwf w v (hval b w hb) (hval a v ha),
              pathSeqCmp_antisym (ancestorPath t v) (ancestorPath t w),
              Int.sign_neg]
  · intro a b c hab hbc
    cases ha : sampleCallNodes.getD a none with
    | none =>
        cases hb : sampleCallNodes.getD b none with
        | none =>
            rw [treeOrderComparator_nn t _ a b ha hb] at hab
            exact absurd hab (by decide)
        | some w =>
            rw [treeOrderComparator_ns t _ a b w ha hb] at hab
            exact absurd hab (by decide)
    | some v =>
        cases hb : sampleCallNodes.getD b none with
        | none =>
            cases hc : sampleCallNodes.getD c none with
            | none =>
                rw [treeOrderComparator_nn t _ b c hb hc] at hbc
                exact absurd hbc (by decide)
            | some u =>
                rw [treeOrderComparator_ns t _ b c u hb hc] at hbc
                exact absurd hbc (by decide)
        | some w =>
            cases hc : sampleCallNodes.getD c none with
            | none =>
                rw [treeOrderComparator_sn t _ a c v ha hc]
                decide
            | some u =>
                rw [treeOrderComparator_ss t _ a b v w ha hb] at hab
                rw [treeOrderComparator_ss t _ b c w u hb hc] at hbc
                rw [treeOrderComparator_ss t _ a c v u ha hc]
                have s1 : (compareCallNodes t v w).sign = -1 :=
                  Int.sign_eq_neg_one_of_neg hab
                have s2 : (compareCallNodes t w u).sign = -1 :=
                  Int.sign_eq_neg_one_of_neg hbc
                rw [compareCallNodes_sign t hwf v w (hval a v ha)
                  (hval b w hb)] at s1
                rw [compareCallNodes_sign t hwf w u (hval b w hb)
                  (hval c u hc)] at s2
                have p3 := pathSeqCmp_trans_neg _ _ _
                  (int_neg_of_sign_neg_one s1) (int_neg_of_sign_neg_one s2)
                have s3 : (pathSeqCmp (ancestorPath t v)
                    (ancestorPath t u)).sign = -1 :=
                  Int.sign_eq_neg_one_of_neg p3
                rw [← compareCallNodes_sign t hwf v u (hval a v ha)
                  (hval c u hc)] at s3
                exact int_neg_of_sign_neg_one s3
  · intro a b c hab hbc
    cases ha : sampleCallNodes.getD a none with
    | none =>
        cases hb : sampleCallNodes.getD b none with
        | none =>
            cases hc : sampleCallNodes.getD c none with
            | none => exact treeOrderComparator_nn t _ a c ha hc
            | some u =>
                rw [treeOrderComparator_ns t _ b c u hb hc] at hbc
                exact absurd hbc (by decide)
        | some w =>
            rw [treeOrderComparator_ns t _ a b w ha hb] at hab
            exact absurd hab (by decide)
    | some v =>
        cases hb : sampleCallNodes.getD b none with
        | none =>
            rw [treeOrderComparator_sn t _ a b v ha hb] at hab
            exact absurd hab (by decide)
        | some w =>
            cases hc : sampleCallNodes.getD c none with
            | none =>
                rw [treeOrderComparator_sn t _ b c w hb hc] at hbc
                exact absurd hbc (by decide)
            | some u =>
                rw [treeOrderComparator_ss t _ a b v w ha hb] at hab
                rw [treeOrderComparator_ss t _ b c w u hb hc] at hbc
                rw [treeOrderComparator_ss t _ a c v u ha hc]
                have e1 := (compareCallNodes_eq_zero_iff t hwf v w
                  (hval a v ha) (hval b w hb)).mp hab
                have e2 := (compareCallNodes_eq_zero_iff t hwf w u
                  (hval b w hb) (hval c u hc)).mp hbc
                subst e1; subst e2
                exact compareCallNodes_self t v
  · intro a b hna hnb
    cases ha : sampleCallNodes.getD a none with
    | none => exact absurd ha hna
    | some v =>
        constructor
        · rw [treeOrderComparator_sn t _ a b v ha hnb]
          decide
        · rw [treeOrderComparator_ns t _ b a v hnb ha]
          decide
  · intro a b ha hb
    exact treeOrderComparator_nn t _ a b ha hb

/-- The example call-node table (two nodes) and per-sample call nodes used
as concrete inputs for the comparator claims. -/
def exCallNodeTable : CallNodeTable :=
  (getCallNodeInfo exStackTable exFrameTable exFuncTable 0).table

def exSampleCallNodes : List (Option Nat) := [some 0, some 1, none]

/-- Witness for C7 at a concrete table and sample list. -/
theorem treeOrderComparator_strictWeakOrder_witness :
    (∀ a, treeOrderComparator exCallNodeTable exSampleCallNodes a a = 0) ∧
    (∀ a b, (treeOrderComparator exCallNodeTable exSampleCallNodes a b).sign =
      - (treeOrderComparator exCallNodeTable exSampleCallNodes b a).sign) ∧
    (∀ a b c, treeOrderComparator exCallNodeTable exSampleCallNodes a b < 0 →
      treeOrderComparator exCallNodeTable exSampleCallNodes b c < 0 →
      treeOrderComparator exCallNodeTable exSampleCallNodes a c < 0) ∧
    (∀ a b c, treeOrderComparator exCallNodeTable exSampleCallNodes a b = 0 →
      treeOrderComparator exCallNodeTable exSampleCallNodes b c = 0 →
      treeOrderComparator exCallNodeTable exSampleCallNodes a c = 0) ∧
    (∀ a b, exSampleCallNodes.getD a none ≠ none →
      exSampleCallNodes.getD b none = none →
      treeOrderComparator exCallNodeTable exSampleCallNodes a b < 0 ∧
      0 < treeOrderComparator exCallNodeTable exSampleCallNodes b a) ∧
    (∀ a b, exSampleCallNodes.getD a none = none →
      exSampleCallNodes.getD b none = none →
      treeOrderComparator exCallNodeTable exSampleCallNodes a b = 0) :=
  treeOrderComparator_strictWeakOrder exCallNodeTable exSampleCallNodes
    (getCallNodeInfo_wfTable exStackTable exFrameTable exFuncTable 0
      (by decide))
    (by decide)

/-!  ### Native-allocation filters -/

/-- The empty balanced native-allocations table (from `data-structures.js`,
which is not among the provided sources; its shape is the columnar table of
the data model, with `memoryAddress`/`threadId` present). -/
def getEmptyBalancedNativeAllocationsTable : NativeAllocationsTable :=
  { time := [], weight := [], weightType := "bytes", stack := [],
    memoryAddress := some [], threadId := some [], length := 0 }

/-- The empty unbalanced native-allocations table (no
`memoryAddress`/`threadId` columns). -/
def getEmptyUnbalancedNativeAllocationsTable : NativeAllocationsTable :=
  { time := [], weight := [], weightType := "bytes", stack := [],
    memoryAddress := none, threadId := none, length := 0 }

/-- JS `Map.set` (overwrite any existing binding). -/
def mapSet (m : List (Int × Nat)) (k : Int) (v : Nat) : List (Int × Nat) :=
  (k, v) :: m.filter (fun p => p.1 != k)

/-- JS `Map.delete`. -/
def mapDelete (m : List (Int × Nat)) (k : Int) : List (Int × Nat) :=
  m.filter (fun p => p.1 != k)

/-- `filterToAllocations`: keep only the strictly positive weights. -/
def filterToAllocations (nativeAllocations : NativeAllocationsTable) :
    NativeAllocationsTable :=
  match nativeAllocations.memoryAddress with
  | some mem =>
      (List.range nativeAllocations.length).foldl (fun acc i =>
        let weight := nativeAllocations.weight.getD i 0
        if weight > 0 then
          { acc with
            time := acc.time ++ [nativeAllocations.time.getD i 0]
            stack := acc.stack ++ [nativeAllocations.stack.getD i none]
            weight := acc.weight ++ [weight]
            memoryAddress := some ((acc.memoryAddress.getD []) ++
              [mem.getD i 0])
            threadId := some ((acc.threadId.getD []) ++
              [(nativeAllocations.threadId.getD []).getD i 0])
            length := acc.length + 1 }
        else acc) getEmptyBalancedNativeAllocationsTable
  | none =>
      (List.range nativeAllocations.length).foldl (fun acc i =>
        let weight := nativeAllocations.weight.getD i 0
        if weight > 0 then
          { acc with
            time := acc.time ++ [nativeAllocations.time.getD i 0]
            stack := acc.stack ++ [nativeAllocations.stack.getD i none]
            weight := acc.weight ++ [weight]
            length := acc.length + 1 }
        else acc) getEmptyUnbalancedNativeAllocationsTable

/-- First pass of `filterToDeallocationsMemory`: walk the events; an
allocation (`weight >= 0`) registers its index under its address; a
deallocation takes (and removes) the registered index, recorded in
`stackOfOriginalAllocation` (note the source stores the allocation *index*,
typed `IndexIntoAllocations`, in this array). -/
def deallocationsMemoryPass (nativeAllocations : NativeAllocationsTable) :
    List (Int × Nat) × List (Option Nat) :=
  (List.range nativeAllocations.length).foldl (fun st allocationIndex =>
    let memoryAddressToAllocation := st.1
    let stackOfOriginalAllocation := st.2
    let bytes := nativeAllocations.weight.getD allocationIndex 0
    let memoryAddress :=
      (nativeAllocations.memoryAddress.getD []).getD allocationIndex 0
    if bytes ≥ 0 then
      (mapSet memoryAddressToAllocation memoryAddress allocationIndex,
       stackOfOriginalAllocation ++ [none])
    else
      match mapGet memoryAddressToAllocation memoryAddress with
      | none => (memoryAddressToAllocation, stackOfOriginalAllocation ++ [none])
      | some previousAllocationIndex =>
          (mapDelete memoryAddressToAllocation memoryAddress,
           stackOfOriginalAllocation ++ [some previousAllocationIndex]))
    ([], [])

/-- `filterToDeallocationsMemory`: keep the matched deallocations, writing
`stackOfOriginalAllocation[i]` into the output's `stack` column. -/
def filterToDeallocationsMemory (nativeAllocations : NativeAllocationsTable) :
    NativeAllocationsTable :=
  let stackOfOriginalAllocation := (deallocationsMemoryPass nativeAllocations).2
  (List.range nativeAllocations.length).foldl (fun acc i =>
    let duration := nativeAllocations.weight.getD i 0
    match stackOfOriginalAllocation.getD i none with
    | none => acc
    | some stackIndex =>
        { acc with
          time := acc.time ++ [nativeAllocations.time.getD i 0]
          stack := acc.stack ++ [some stackIndex]
          weight := acc.weight ++ [duration]
          memoryAddress := some ((acc.memoryAddress.getD []) ++
            [(nativeAllocations.memoryAddress.getD []).getD i 0])
          threadId := some ((acc.threadId.getD []) ++
            [(nativeAllocations.threadId.getD []).getD i 0])
          length := acc.length + 1 })
    getEmptyBalancedNativeAllocationsTable

/-- First pass of `filterToRetainedAllocations`: mark every allocation as
retained, then clear the mark of any allocation matched by a later
deallocation at the same address (consuming the map entry). -/
def retainedAllocationsPass (nativeAllocations : NativeAllocationsTable) :
    List (Int × Nat) × List Bool :=
  (List.range nativeAllocations.length).foldl (fun st allocationIndex =>
    let memoryAddressToAllocation := st.1
    let retainedAllocation := st.2
    let bytes := nativeAllocations.weight.getD allocationIndex 0
    let memoryAddress :=
      (nativeAllocations.memoryAddress.getD []).getD allocationIndex 0
    if bytes ≥ 0 then
      (mapSet memoryAddressToAllocation memoryAddress allocationIndex,
       retainedAllocation ++ [true])
    else
      let retainedAllocation := retainedAllocation ++ [false]
      match mapGet memoryAddressToAllocation memoryAddress with
      | none => (memoryAddressToAllocation, retainedAllocation)
      | some previousAllocationIndex =>
          (mapDelete memoryAddressToAllocation memoryAddress,
           retainedAllocation.set previousAllocationIndex false))
    ([], [])

/-- `filterToRetainedAllocations`: emit the rows still marked retained. -/
def filterToRetainedAllocations (nativeAllocations : NativeAllocationsTable) :
    NativeAllocationsTable :=
  let retainedAllocation := (retainedAllocationsPass nativeAllocations).2
  (List.range nativeAllocations.length).foldl (fun acc i =>
    let weight := nativeAllocations.weight.getD i 0
    if retainedAllocation.getD i false then
      { acc with
        time := acc.time ++ [nativeAllocations.time.getD i 0]
        stack := acc.stack ++ [nativeAllocations.stack.getD i none]
        weight := acc.weight ++ [weight]
        memoryAddress := some ((acc.memoryAddress.getD []) ++
          [(nativeAllocations.memoryAddress.getD []).getD i 0])
        threadId := some ((acc.threadId.getD []) ++
          [(nativeAllocations.threadId.getD []).getD i 0])
        length := acc.length + 1 }
    else acc)
    getEmptyBalancedNativeAllocationsTable

/-- C8's failing input: an allocation of 100 bytes at address `0x10` with
stack `5`, then a deallocation of the same address.  -/
def exC8Allocations : NativeAllocationsTable :=
  { time := [1, 2], weight := [100, -100], weightType := "bytes",
    stack := [some 5, some 9], memoryAddress := some [16, 16],
    threadId := some [3, 3], length := 2 }

/-- C8: evaluating `filterToDeallocationsMemory` at the failing input.
Exactly one record is produced, but its `stack` field holds the matched
allocation's *index* (`0`), not the allocation's original stack (`5`),
contradicting the function's own doc comment ("rewrites the stacks to point
back to the stack of the allocation"). -/
theorem filterToDeallocationsMemory_stack_divergence :
    (filterToDeallocationsMemory exC8Allocations).length = 1 ∧
    (filterToDeallocationsMemory exC8Allocations).stack = [some 0] ∧
    exC8Allocations.stack.getD 0 none = some 5 ∧
    (filterToDeallocationsMemory exC8Allocations).stack ≠ [some 5] := by
  decide

/-- C10's input: a weight-0 native-allocation event at address `0x10`
followed by a matching deallocation. -/
def exC10Allocations : NativeAllocationsTable :=
  { time := [1, 2], weight := [0, -5], weightType := "bytes",
    stack := [some 7, some 8], memoryAddress := some [16, 16],
    threadId := some [3, 3], length := 2 }

/-- The same input without the weight-0 event. -/
def exC10DeallocationOnly : NativeAllocationsTable :=
  { time := [2], weight := [-5], weightType := "bytes", stack := [some 8],
    memoryAddress := some [16], threadId := some [3], length := 1 }

/-- C10: a weight-0 event is treated as an allocation by the pairing passes
(`weight >= 0`): it consumes the later deallocation in
`filterToDeallocationsMemory` (which emits one matched record, and would
emit none without the weight-0 event) and in `filterToRetainedAllocations`
(nothing retained), while `filterToAllocations` (strictly `weight > 0`)
excludes it entirely. -/
theorem weightZero_event_pairing :
    (filterToAllocations exC10Allocations).length = 0 ∧
    (filterToDeallocationsMemory exC10Allocations).length = 1 ∧
    (filterToDeallocationsMemory exC10Allocations).weight = [-5] ∧
    (filterToRetainedAllocations exC10Allocations).length = 0 ∧
    (filterToDeallocationsMemory exC10DeallocationOnly).length = 0 := by
  decide

/-!  ### Event-delay reconstruction -/

structure EventDelayInfo where
  eventDelays : List Int
  minDelay : Int
  maxDelay : Int
  delayRange : Int
deriving DecidableEq

/-- `processEventDelays`: throws (`Except.error`) when the profile has no
`eventDelay` column; otherwise runs the sawtooth distribution loop and the
min/max scan.  Times and delays are embedded as integers; `Math.trunc` of
the division is `Int.tdiv`. -/
def processEventDelays (samples : SamplesTable) (interval : Int) :
    Except String EventDelayInfo :=
  match samples.eventDelay with
  | none =>
      Except.error "processEventDelays step should not be called for older profiles"
  | some rawEventDelays =>
      let init : List Int := List.replicate samples.length 0
      let st := (List.range' 1 (samples.length - 1)).foldl
        (fun (st : List Int × Int × Int) i =>
          let eventDelays := st.1
          let lastSubmission := st.2.1
          let lastSubmissionIdx := st.2.2
          let nextEventDelay := (rawEventDelays.getD (i + 1) none).getD 0
          let now := samples.time.getD i 0
          match rawEventDelays.getD i none with
          | none => st
          | some currentEventDelay =>
            if currentEventDelay < nextEventDelay then st
            else
              let sampleSinceBlockedEvents := currentEventDelay.tdiv interval
              let effectiveSubmission := now - currentEventDelay
              let effectiveSubmissionIdx : Int :=
                (i : Int) - sampleSinceBlockedEvents
              if effectiveSubmissionIdx < 0 then
                (eventDelays, now, (i : Int))
              else
                if lastSubmissionIdx = effectiveSubmissionIdx then
                  (eventDelays, effectiveSubmission, effectiveSubmissionIdx)
                else
                  let inner := (List.range' (lastSubmissionIdx.toNat + 1)
                    (effectiveSubmissionIdx.toNat - lastSubmissionIdx.toNat)).foldl
                    (fun (p : List Int × Int) j =>
                      (p.1.set j (p.1.getD j 0 + p.2),
                       p.2 - (samples.time.getD (j + 1) 0 -
                         samples.time.getD j 0)))
                    (eventDelays, now - lastSubmission)
                  (inner.1, effectiveSubmission, effectiveSubmissionIdx))
        (init, samples.time.getD 0 0, (0 : Int))
      let minMax := st.1.foldl
        (fun (mm : Int × Int) delay =>
          if delay ≠ 0 then (min delay mm.1, max delay mm.2) else mm)
        (9007199254740991, 0)
      Except.ok
        { eventDelays := st.1, minDelay := minMax.1, maxDelay := minMax.2,
          delayRange := minMax.2 - minMax.1 }

/-- C9 (counterexample): on a samples table without an `eventDelay` column
the function throws rather than returning a recoverable result. -/
theorem processEventDelays_missing_column_throws :
    processEventDelays exRangeThread.samples 1 =
      Except.error
        "processEventDelays step should not be called for older profiles" :=
  rfl

/-- C9 (amended): for every samples table lacking the `eventDelay` column,
`processEventDelays` raises the fatal error
"processEventDelays step should not be called for older profiles"; it never
degrades to a null result for such older profiles (callers must check
first). -/
theorem processEventDelays_missing_column_fatal (samples : SamplesTable)
    (interval : Int) (h : samples.eventDelay = none) :
    processEventDelays samples interval =
      Except.error
        "processEventDelays step should not be called for older profiles" := by
  unfold processEventDelays
  rw [h]

/-- Witness for the amended C9 at a concrete input. -/
theorem processEventDelays_missing_column_fatal_witness :
    processEventDelays
      { time := [0, 1], stack := [none, none], weight := none,
        weightType := "samples", eventDelay := none, responsiveness := none,
        threadCPUDelta := none, length := 2 } 1 =
      Except.error
        "processEventDelays step should not be called for older profiles" :=
  processEventDelays_missing_column_fatal
    { time := [0, 1], stack := [none, none], weight := none,
      weightType := "samples", eventDelay := none, responsiveness := none,
      threadCPUDelta := none, length := 2 } 1 rfl

/-!  ### Timing aggregator (`getTimingsForCallNodeIndex`) -/

inductive StackImplementation
  | native
  | interpreter
  | blinterp
  | baseline
  | ion
  | unknown
deriving DecidableEq

/-- `BreakdownByImplementation`: a JS object mapping tier names to
durations; absent keys read as `0`, so it is embedded with all six fields
present and zero-initialized. -/
structure BreakdownByImplementation where
  native : Int
  interpreter : Int
  blinterp : Int
  baseline : Int
  ion : Int
  unknown : Int
deriving DecidableEq

def emptyBreakdownByImplementation : BreakdownByImplementation :=
  ⟨0, 0, 0, 0, 0, 0⟩

def BreakdownByImplementation.add (b : BreakdownByImplementation)
    (impl : StackImplementation) (duration : Int) :
    BreakdownByImplementation :=
  match impl with
  | .native => { b with native := b.native + duration }
  | .interpreter => { b with interpreter := b.interpreter + duration }
  | .blinterp => { b with blinterp := b.blinterp + duration }
  | .baseline => { b with baseline := b.baseline + duration }
  | .ion => { b with ion := b.ion + duration }
  | .unknown => { b with unknown := b.unknown + duration }

structure OneCategoryBreakdown where
  entireCategoryValue : Int
  subcategoryBreakdown : List Int
deriving DecidableEq

/-- One of the `selfTime`/`totalTime` records of `ItemTimings`. -/
structure TimingsValue where
  value : Int
  breakdownByImplementation : Option BreakdownByImplementation
  breakdownByCategory : Option (List OneCategoryBreakdown)
deriving DecidableEq

structure ItemTimings where
  selfTime : TimingsValue
  totalTime : TimingsValue
deriving DecidableEq

structure TimingsForPath where
  forPath : ItemTimings
  forFunc : ItemTimings
  rootTime : Int
deriving DecidableEq

def emptyTimingsValue : TimingsValue := ⟨0, none, none⟩

def emptyItemTimings : ItemTimings := ⟨emptyTimingsValue, emptyTimingsValue⟩

def emptyTimingsForPath : TimingsForPath :=
  ⟨emptyItemTimings, emptyItemTimings, 0⟩

/-- The sample's weight, defaulting to `1` when the samples table has no
weight column. -/
def sampleWeight (samples : SamplesTable) (i : Nat) : Int :=
  match samples.weight with
  | some w => w.getD i 0
  | none => 1

/-- `categories.findIndex(({name}) => name === 'JavaScript')`. -/
def javascriptCategoryIndex (categories : List Category) : Int :=
  match categories.findIdx? (fun c => c.name == "JavaScript") with
  | some i => (i : Int)
  | none => -1

/-- `getImplementationForJsStack`: note the string table used is the
*filtered* thread's, as in the source. -/
def getImplementationForJsStack (thread unfilteredThread : Thread)
    (unfilteredFrameIndex : Nat) : StackImplementation :=
  match unfilteredThread.frameTable.implementation.getD unfilteredFrameIndex
      none with
  | none => .interpreter
  | some jsImplementationStrIndex =>
      match thread.stringTable.getD jsImplementationStrIndex "" with
      | "baseline" => .baseline
      | "blinterp" => .blinterp
      | "ion" => .ion
      | _ => .unknown

/-- The ancestor walk of `getImplementationForNativeStack`, with fuel (the
walk strictly descends for well-formed stack tables, so the table length
suffices). -/
def getImplementationForNativeStackGo (thread unfilteredThread : Thread) :
    Nat → Option Nat → StackImplementation
  | _, none => .native
  | 0, some _ => .native
  | fuel + 1, some currentStackIndex =>
      let frameIndex :=
        unfilteredThread.stackTable.frame.getD currentStackIndex 0
      let funcIndex := unfilteredThread.frameTable.func.getD frameIndex 0
      if unfilteredThread.funcTable.isJS.getD funcIndex false then
        getImplementationForJsStack thread unfilteredThread frameIndex
      else
        getImplementationForNativeStackGo thread unfilteredThread fuel
          (unfilteredThread.stackTable.parent.getD currentStackIndex none)

def getImplementationForNativeStack (thread unfilteredThread : Thread)
    (categories : List Category) (unfilteredStackIndex : Nat) :
    StackImplementation :=
  if unfilteredThread.stackTable.category.getD unfilteredStackIndex 0 ≠
      javascriptCategoryIndex categories then
    .native
  else
    getImplementationForNativeStackGo thread unfilteredThread
      unfilteredThread.stackTable.length (some unfilteredStackIndex)

def getImplementationForStack (thread unfilteredThread : Thread)
    (categories : List Category) (unfilteredSamples : SamplesTable)
    (sampleIndexOffset : Nat) (thisSampleIndex : Nat) : StackImplementation :=
  match unfilteredSamples.stack.getD (thisSampleIndex + sampleIndexOffset)
      none with
  | none => .native
  | some stackIndex =>
      let frameIndex := unfilteredThread.stackTable.frame.getD stackIndex 0
      let funcIndex := unfilteredThread.frameTable.func.getD frameIndex 0
      if unfilteredThread.funcTable.isJS.getD funcIndex false then
        getImplementationForJsStack thread unfilteredThread frameIndex
      else
        getImplementationForNativeStack thread unfilteredThread categories
          stackIndex

/-- Step 5 of `accumulateDataToTimings`: increment one category's total and
one subcategory slot.  (For an out-of-range category index the JS code
would fault; the embedding leaves the list unchanged, a case no theorem
relies on.) -/
def updateCategoryBreakdown (bc : List OneCategoryBreakdown)
    (categoryIndex subcategoryIndex : Int) (duration : Int) :
    List OneCategoryBreakdown :=
  let old := bc.getD categoryIndex.toNat ⟨0, []⟩
  bc.set categoryIndex.toNat
    { entireCategoryValue := old.entireCategoryValue + duration
      subcategoryBreakdown := old.subcategoryBreakdown.set
        subcategoryIndex.toNat
        (old.subcategoryBreakdown.getD subcategoryIndex.toNat 0 + duration) }

/-- `accumulateDataToTimings`: increment the value, always update the
implementation breakdown (lazily created), and update the category
breakdown from the *unfiltered* stack when it is non-null.  The
`stackIndex` argument is unused, as in the source. -/
def accumulateDataToTimings (thread unfilteredThread : Thread)
    (categories : List Category) (unfilteredSamples : SamplesTable)
    (sampleIndexOffset : Nat) (timings : TimingsValue) (sampleIndex : Nat)
    (stackIndex : Nat) (duration : Int) : TimingsValue :=
  let timings := { timings with value := timings.value + duration }
  let implementation := getImplementationForStack thread unfilteredThread
    categories unfilteredSamples sampleIndexOffset sampleIndex
  let b := (timings.breakdownByImplementation.getD
    emptyBreakdownByImplementation).add implementation duration
  let timings := { timings with breakdownByImplementation := some b }
  match unfilteredSamples.stack.getD (sampleIndex + sampleIndexOffset) none with
  | none => timings
  | some unfilteredStackIndex =>
      let categoryIndex :=
        unfilteredThread.stackTable.category.getD unfilteredStackIndex 0
      let subcategoryIndex :=
        unfilteredThread.stackTable.subcategory.getD unfilteredStackIndex 0
      let bc := timings.breakdownByCategory.getD
        (categories.map (fun category =>
          (⟨0, List.replicate category.subcategories.length 0⟩ :
            OneCategoryBreakdown)))
      let bc2 := updateCategoryBreakdown bc categoryIndex subcategoryIndex
        duration
      { timings with breakdownByCategory := some bc2 }

section TimingsLoop

variable (callNodeTable : CallNodeTable) (stackIndexToCallNodeIndex : List Nat)
variable (isInvertedTree : Bool) (thread unfilteredThread : Thread)
variable (sampleIndexOffset : Nat) (categories : List Category)
variable (samples unfilteredSamples : SamplesTable)
variable (needleNodeIndex needleFuncIndex : Nat)

/-- The two non-inverted `totalTime` contributions made while visiting one
ancestor in the chain loop of `getTimingsForCallNodeIndex` (factored out of
the loop body). -/
def chainLoopVisit (funcFound : Bool)
    (currentNodeIndex currentFuncIndex sampleIndex thisStackIndex : Nat)
    (weight : Int) (acc : TimingsForPath) : TimingsForPath :=
  let acc :=
    if currentNodeIndex = needleNodeIndex ∧ isInvertedTree = false then
      let tv := accumulateDataToTimings thread unfilteredThread categories
        unfilteredSamples sampleIndexOffset acc.forPath.totalTime
        sampleIndex thisStackIndex weight
      { acc with forPath.totalTime := tv }
    else acc
  if funcFound = false ∧ currentFuncIndex = needleFuncIndex ∧
      isInvertedTree = false then
    let tv := accumulateDataToTimings thread unfilteredThread categories
      unfilteredSamples sampleIndexOffset acc.forFunc.totalTime
      sampleIndex thisStackIndex weight
    { acc with forFunc.totalTime := tv }
  else acc

/-- The inverted-tree contributions made at the root of the walk (the
`nextStackIndex === null` block of the source): the path self time is
incremented *directly*, without the shared breakdown helper; the other
three contributions go through `accumulateDataToTimings`. -/
def chainLoopRootVisit (pathFound funcFound : Bool)
    (currentNodeIndex currentFuncIndex currentStackIndex sampleIndex : Nat)
    (weight : Int) (acc : TimingsForPath) : TimingsForPath :=
  let acc :=
    if currentNodeIndex = needleNodeIndex then
      let v := acc.forPath.selfTime.value + weight
      { acc with forPath.selfTime.value := v }
    else acc
  let acc :=
    if currentFuncIndex = needleFuncIndex then
      let tv := accumulateDataToTimings thread unfilteredThread categories
        unfilteredSamples sampleIndexOffset acc.forFunc.selfTime sampleIndex
        currentStackIndex weight
      { acc with forFunc.selfTime := tv }
    else acc
  let acc :=
    if pathFound then
      let tv := accumulateDataToTimings thread unfilteredThread categories
        unfilteredSamples sampleIndexOffset acc.forPath.totalTime sampleIndex
        currentStackIndex weight
      { acc with forPath.totalTime := tv }
    else acc
  if funcFound then
    let tv := accumulateDataToTimings thread unfilteredThread categories
      unfilteredSamples sampleIndexOffset acc.forFunc.totalTime sampleIndex
      currentStackIndex weight
    { acc with forFunc.totalTime := tv }
  else acc

/-- The ancestor-chain loop of the per-sample pass of
`getTimingsForCallNodeIndex` (with fuel; the chain strictly descends for
well-formed stack tables).  The early `break` of the non-inverted tree is
the non-recursive branch. -/
def timingsChainLoop (sampleIndex thisStackIndex : Nat) (weight : Int) :
    Nat → Option Nat → Bool → Bool → TimingsForPath → TimingsForPath
  | _, none, _, _, acc => acc
  | 0, some _, _, _, acc => acc
  | fuel + 1, some currentStackIndex, funcFound, pathFound, acc =>
      let currentNodeIndex :=
        stackIndexToCallNodeIndex.getD currentStackIndex 0
      let currentFuncIndex := callNodeTable.func.getD currentNodeIndex 0
      let nextStackIndex :=
        thread.stackTable.parent.getD currentStackIndex none
      let acc := chainLoopVisit isInvertedTree thread
        unfilteredThread sampleIndexOffset categories unfilteredSamples
        needleNodeIndex needleFuncIndex funcFound currentNodeIndex
        currentFuncIndex sampleIndex thisStackIndex weight acc
      let pathFound := pathFound ∨ currentNodeIndex = needleNodeIndex
      let funcFound := funcFound ∨ currentFuncIndex = needleFuncIndex
      if isInvertedTree = false ∧ funcFound = true ∧ pathFound = true then
        acc
      else
        let acc :=
          if isInvertedTree = true ∧ nextStackIndex = none then
            chainLoopRootVisit thread unfilteredThread sampleIndexOffset
              categories unfilteredSamples needleNodeIndex needleFuncIndex
              pathFound funcFound currentNodeIndex currentFuncIndex
              currentStackIndex sampleIndex weight acc
          else acc
        timingsChainLoop sampleIndex thisStackIndex weight fuel nextStackIndex
          funcFound pathFound acc

/-- The two non-inverted `selfTime` contributions at the leaf of a sample's
stack (factored out of the sample loop body). -/
def sampleSelfVisit (thisNodeIndex thisFunc sampleIndex thisStackIndex : Nat)
    (weight : Int) (acc : TimingsForPath) : TimingsForPath :=
  let acc :=
    if isInvertedTree = false ∧ thisNodeIndex = needleNodeIndex then
      let tv := accumulateDataToTimings thread unfilteredThread categories
        unfilteredSamples sampleIndexOffset acc.forPath.selfTime
        sampleIndex thisStackIndex weight
      { acc with forPath.selfTime := tv }
    else acc
  if isInvertedTree = false ∧ thisFunc = needleFuncIndex then
    let tv := accumulateDataToTimings thread unfilteredThread categories
      unfilteredSamples sampleIndexOffset acc.forFunc.selfTime
      sampleIndex thisStackIndex weight
    { acc with forFunc.selfTime := tv }
  else acc

/-- One iteration of the sample loop of `getTimingsForCallNodeIndex`. -/
def processTimingsSample (acc : TimingsForPath) (sampleIndex : Nat) :
    TimingsForPath :=
  match samples.stack.getD sampleIndex none with
  | none => acc
  | some thisStackIndex =>
      let weight := sampleWeight samples sampleIndex
      let acc := { acc with rootTime := acc.rootTime + |weight| }
      let thisNodeIndex := stackIndexToCallNodeIndex.getD thisStackIndex 0
      let thisFunc := callNodeTable.func.getD thisNodeIndex 0
      let acc := sampleSelfVisit isInvertedTree thread unfilteredThread
        sampleIndexOffset categories unfilteredSamples needleNodeIndex
        needleFuncIndex thisNodeIndex thisFunc sampleIndex thisStackIndex
        weight acc
      timingsChainLoop callNodeTable stackIndexToCallNodeIndex isInvertedTree
        thread unfilteredThread sampleIndexOffset categories unfilteredSamples
        needleNodeIndex needleFuncIndex sampleIndex thisStackIndex weight
        (thread.stackTable.length + 1) (some thisStackIndex) false false acc

end TimingsLoop

/-- `getTimingsForCallNodeIndex`: empty timings for a null needle,
otherwise the sample loop.  (`interval` is accepted but never read, as in
the source.) -/
def getTimingsForCallNodeIndex (needleNodeIndex : Option Nat)
    (callNodeTable : CallNodeTable) (stackIndexToCallNodeIndex : List Nat)
    (interval : Int) (isInvertedTree : Bool)
    (thread unfilteredThread : Thread) (sampleIndexOffset : Nat)
    (categories : List Category) (samples unfilteredSamples : SamplesTable) :
    TimingsForPath :=
  match needleNodeIndex with
  | none => emptyTimingsForPath
  | some needleNodeIndex =>
      let needleFuncIndex := callNodeTable.func.getD needleNodeIndex 0
      (List.range samples.length).foldl
        (processTimingsSample callNodeTable stackIndexToCallNodeIndex
          isInvertedTree thread unfilteredThread sampleIndexOffset categories
          samples unfilteredSamples needleNodeIndex needleFuncIndex)
        emptyTimingsForPath

section TimingsProofs

variable (callNodeTable : CallNodeTable) (stackIndexToCallNodeIndex : List Nat)
variable (isInvertedTree : Bool) (thread unfilteredThread : Thread)
variable (sampleIndexOffset : Nat) (categories : List Category)
variable (samples unfilteredSamples : SamplesTable)
variable (needleNodeIndex needleFuncIndex : Nat)

theorem accumulateDataToTimings_value (timings : TimingsValue)
    (sampleIndex stackIndex : Nat) (duration : Int) :
    (accumulateDataToTimings thread unfilteredThread categories
      unfilteredSamples sampleIndexOffset timings sampleIndex stackIndex
      duration).value = timings.value + duration := by
  simp only [accumulateDataToTimings]
  cases unfilteredSamples.stack.getD (sampleIndex + sampleIndexOffset) none
    <;> rfl

theorem accumulateDataToTimings_impl_isSome (timings : TimingsValue)
    (sampleIndex stackIndex : Nat) (duration : Int) :
    (accumulateDataToTimings thread unfilteredThread categories
      unfilteredSamples sampleIndexOffset timings sampleIndex stackIndex
      duration).breakdownByImplementation ≠ none := by
  simp only [accumulateDataToTimings]
  cases unfilteredSamples.stack.getD (sampleIndex + sampleIndexOffset) none
    <;> simp

theorem chainLoopVisit_frame (funcFound : Bool)
    (currentNodeIndex currentFuncIndex sampleIndex thisStackIndex : Nat)
    (weight : Int) (acc : TimingsForPath) :
    (chainLoopVisit isInvertedTree thread unfilteredThread sampleIndexOffset
      categories unfilteredSamples needleNodeIndex needleFuncIndex funcFound
      currentNodeIndex currentFuncIndex sampleIndex thisStackIndex weight
      acc).rootTime = acc.rootTime ∧
    (chainLoopVisit isInvertedTree thread unfilteredThread sampleIndexOffset
      categories unfilteredSamples needleNodeIndex needleFuncIndex funcFound
      currentNodeIndex currentFuncIndex sampleIndex thisStackIndex weight
      acc).forPath.selfTime = acc.forPath.selfTime ∧
    (chainLoopVisit isInvertedTree thread unfilteredThread sampleIndexOffset
      categories unfilteredSamples needleNodeIndex needleFuncIndex funcFound
      currentNodeIndex currentFuncIndex sampleIndex thisStackIndex weight
      acc).forFunc.selfTime = acc.forFunc.selfTime := by
  simp only [chainLoopVisit]
  repeat' split
  all_goals exact ⟨rfl, rfl, rfl⟩

theorem chainLoopRootVisit_frame (pathFound funcFound : Bool)
    (currentNodeIndex currentFuncIndex currentStackIndex sampleIndex : Nat)
    (weight : Int) (acc : TimingsForPath) :
    (chainLoopRootVisit thread unfilteredThread sampleIndexOffset categories
      unfilteredSamples needleNodeIndex needleFuncIndex pathFound funcFound
      currentNodeIndex currentFuncIndex currentStackIndex sampleIndex weight
      acc).rootTime = acc.rootTime ∧
    (chainLoopRootVisit thread unfilteredThread sampleIndexOffset categories
      unfilteredSamples needleNodeIndex needleFuncIndex pathFound funcFound
      currentNodeIndex currentFuncIndex currentStackIndex sampleIndex weight
      acc).forPath.selfTime.breakdownByImplementation =
        acc.forPath.selfTime.breakdownByImplementation ∧
    (chainLoopRootVisit thread unfilteredThread sampleIndexOffset categories
      unfilteredSamples needleNodeIndex needleFuncIndex pathFound funcFound
      currentNodeIndex currentFuncIndex currentStackIndex sampleIndex weight
      acc).forPath.selfTime.breakdownByCategory =
        acc.forPath.selfTime.breakdownByCategory := by
  simp only [chainLoopRootVisit]
  repeat' split
  all_goals exact ⟨rfl, rfl, rfl⟩

theorem sampleSelfVisit_rootTime
    (thisNodeIndex thisFunc sampleIndex thisStackIndex : Nat) (weight : Int)
    (acc : TimingsForPath) :
    (sampleSelfVisit isInvertedTree thread unfilteredThread sampleIndexOffset
      categories unfilteredSamples needleNodeIndex needleFuncIndex
      thisNodeIndex thisFunc sampleIndex thisStackIndex weight
      acc).rootTime = acc.rootTime := by
  simp only [sampleSelfVisit]
  repeat' split
  all_goals rfl

theorem timingsChainLoop_rootTime (sampleIndex thisStackIndex : Nat)
    (weight : Int) :
    ∀ fuel cur ff pf acc,
      (timingsChainLoop callNodeTable stackIndexToCallNodeIndex isInvertedTree
        thread unfilteredThread sampleIndexOffset categories unfilteredSamples
        needleNodeIndex needleFuncIndex sampleIndex thisStackIndex weight fuel
        cur ff pf acc).rootTime = acc.rootTime := by
  intro fuel
  induction fuel with
  | zero => intro cur ff pf acc; cases cur <;> rfl
  | succ fuel ih =>
      intro cur ff pf acc
      cases cur with
      | none => rfl
      | some cs =>
          simp only [timingsChainLoop]
          split
          · exact (chainLoopVisit_frame isInvertedTree thread unfilteredThread
              sampleIndexOffset categories unfilteredSamples needleNodeIndex
              needleFuncIndex _ _ _ _ _ _ _).1
          · rw [ih]
            split
            · rw [(chainLoopRootVisit_frame thread unfilteredThread
                sampleIndexOffset categories unfilteredSamples needleNodeIndex
                needleFuncIndex _ _ _ _ _ _ _ _).1,
                (chainLoopVisit_frame isInvertedTree thread unfilteredThread
                sampleIndexOffset categories unfilteredSamples needleNodeIndex
                needleFuncIndex _ _ _ _ _ _ _).1]
            · exact (chainLoopVisit_frame isInvertedTree thread
                unfilteredThread sampleIndexOffset categories
                unfilteredSamples needleNodeIndex needleFuncIndex
                _ _ _ _ _ _ _).1

end TimingsProofs

section TimingsProofs2

variable (callNodeTable : CallNodeTable) (stackIndexToCallNodeIndex : List Nat)
variable (isInvertedTree : Bool) (thread unfilteredThread : Thread)
variable (sampleIndexOffset : Nat) (categories : List Category)
variable (samples unfilteredSamples : SamplesTable)
variable (needleNodeIndex needleFuncIndex : Nat)

theorem timingsChainLoop_selfTime (hinv : isInvertedTree = false)
    (sampleIndex thisStackIndex : Nat) (weight : Int) :
    ∀ fuel cur ff pf acc,
      (timingsChainLoop callNodeTable stackIndexToCallNodeIndex isInvertedTree
        thread unfilteredThread sampleIndexOffset categories unfilteredSamples
        needleNodeIndex needleFuncIndex sampleIndex thisStackIndex weight fuel
        cur ff pf acc).forPath.selfTime = acc.forPath.selfTime := by
  subst hinv
  intro fuel
  induction fuel with
  | zero => intro cur ff pf acc; cases cur <;> rfl
  | succ fuel ih =>
      intro cur ff pf acc
      cases cur with
      | none => rfl
      | some cs =>
          simp only [timingsChainLoop]
          split
          · exact (chainLoopVisit_frame false thread unfilteredThread
              sampleIndexOffset categories unfilteredSamples needleNodeIndex
              needleFuncIndex _ _ _ _ _ _ _).2.1
          · rw [ih]
            split
            · next h =>
                exact absurd h.1 (by decide)
            · exact (chainLoopVisit_frame false thread unfilteredThread
                sampleIndexOffset categories unfilteredSamples needleNodeIndex
                needleFuncIndex _ _ _ _ _ _ _).2.1

theorem sampleSelfVisit_selfTime (hinv : isInvertedTree = false)
    (thisNodeIndex thisFunc sampleIndex thisStackIndex : Nat) (weight : Int)
    (acc : TimingsForPath) :
    (sampleSelfVisit isInvertedTree thread unfilteredThread sampleIndexOffset
      categories unfilteredSamples needleNodeIndex needleFuncIndex
      thisNodeIndex thisFunc sampleIndex thisStackIndex weight
      acc).forPath.selfTime.value =
    acc.forPath.selfTime.value +
      (if thisNodeIndex = needleNodeIndex then weight else 0) := by
  subst hinv
  simp only [sampleSelfVisit]
  split
  · split
    · next h =>
        rw [if_pos h.2]
        exact accumulateDataToTimings_value thread unfilteredThread
          sampleIndexOffset categories unfilteredSamples acc.forPath.selfTime
          sampleIndex thisStackIndex weight
    · next h =>
        rw [if_neg (fun hc => h ⟨trivial, hc⟩)]
        simp
  · split
    · next h =>
        rw [if_pos h.2]
        exact accumulateDataToTimings_value thread unfilteredThread
          sampleIndexOffset categories unfilteredSamples acc.forPath.selfTime
          sampleIndex thisStackIndex weight
    · next h =>
        rw [if_neg (fun hc => h ⟨trivial, hc⟩)]
        simp

theorem processTimingsSample_rootTime (acc : TimingsForPath) (i : Nat) :
    (processTimingsSample callNodeTable stackIndexToCallNodeIndex
      isInvertedTree thread unfilteredThread sampleIndexOffset categories
      samples unfilteredSamples needleNodeIndex needleFuncIndex acc
      i).rootTime =
    acc.rootTime +
      (match samples.stack.getD i none with
       | none => 0
       | some _ => |sampleWeight samples i|) := by
  simp only [processTimingsSample]
  cases h : samples.stack.getD i none with
  | none => simp
  | some s =>
      rw [timingsChainLoop_rootTime, sampleSelfVisit_rootTime]

theorem processTimingsSample_selfTimeValue (hinv : isInvertedTree = false)
    (acc : TimingsForPath) (i : Nat) :
    (processTimingsSample callNodeTable stackIndexToCallNodeIndex
      isInvertedTree thread unfilteredThread sampleIndexOffset categories
      samples unfilteredSamples needleNodeIndex needleFuncIndex acc
      i).forPath.selfTime.value =
    acc.forPath.selfTime.value +
      (match samples.stack.getD i none with
       | none => 0
       | some s =>
          if stackIndexToCallNodeIndex.getD s 0 = needleNodeIndex then
            sampleWeight samples i
          else 0) := by
  subst hinv
  simp only [processTimingsSample]
  cases h : samples.stack.getD i none with
  | none => simp
  | some s =>
      rw [timingsChainLoop_selfTime callNodeTable stackIndexToCallNodeIndex
        false thread unfilteredThread sampleIndexOffset categories
        unfilteredSamples needleNodeIndex needleFuncIndex rfl]
      rw [sampleSelfVisit_selfTime false thread unfilteredThread
        sampleIndexOffset categories unfilteredSamples needleNodeIndex
        needleFuncIndex rfl]

end TimingsProofs2

section TimingsProofs3

variable (callNodeTable : CallNodeTable) (stackIndexToCallNodeIndex : List Nat)
variable (thread unfilteredThread : Thread)
variable (sampleIndexOffset : Nat) (categories : List Category)
variable (samples unfilteredSamples : SamplesTable)
variable (needleNodeIndex needleFuncIndex : Nat)

/-- Contribution of one sample to `rootTime`: `|weight|` when its stack is
non-null, `0` otherwise. -/
def rootTimeContrib (samples : SamplesTable) (i : Nat) : Int :=
  match samples.stack.getD i none with
  | none => 0
  | some _ => |sampleWeight samples i|

/-- Contribution of one sample to the needle node's path self time in the
non-inverted orientation: the sample's weight exactly when the call node of
its leaf stack is the needle. -/
def selfTimeContrib (stackIndexToCallNodeIndex : List Nat)
    (needleNodeIndex : Nat) (samples : SamplesTable) (i : Nat) : Int :=
  match samples.stack.getD i none with
  | none => 0
  | some s =>
      if stackIndexToCallNodeIndex.getD s 0 = needleNodeIndex then
        sampleWeight samples i
      else 0

theorem timingsFold_noninverted :
    ∀ n,
      (((List.range n).foldl
        (processTimingsSample callNodeTable stackIndexToCallNodeIndex false
          thread unfilteredThread sampleIndexOffset categories samples
          unfilteredSamples needleNodeIndex needleFuncIndex)
        emptyTimingsForPath).rootTime =
        (List.range n).foldl (fun a i => a + rootTimeContrib samples i) 0) ∧
      (((List.range n).foldl
        (processTimingsSample callNodeTable stackIndexToCallNodeIndex false
          thread unfilteredThread sampleIndexOffset categories samples
          unfilteredSamples needleNodeIndex needleFuncIndex)
        emptyTimingsForPath).forPath.selfTime.value =
        (List.range n).foldl
          (fun a i => a + selfTimeContrib stackIndexToCallNodeIndex
            needleNodeIndex samples i) 0) := by
  intro n
  induction n with
  | zero => exact ⟨rfl, rfl⟩
  | succ n ih =>
      rw [List.range_succ, List.foldl_append, List.foldl_append,
        List.foldl_append]
      simp only [List.foldl_cons, List.foldl_nil]
      constructor
      · rw [processTimingsSample_rootTime callNodeTable
          stackIndexToCallNodeIndex false thread unfilteredThread
          sampleIndexOffset categories samples unfilteredSamples
          needleNodeIndex needleFuncIndex, ih.1]
        rfl
      · rw [processTimingsSample_selfTimeValue callNodeTable
          stackIndexToCallNodeIndex false thread unfilteredThread
          sampleIndexOffset categories samples unfilteredSamples
          needleNodeIndex needleFuncIndex rfl, ih.2]
        rfl

end TimingsProofs3

def exABStackTable : StackTable := ⟨[none, none], [0, 1], [0, 0], [0, 0], 2⟩

def exABFrameTable : FrameTable := ⟨[0, 1], [0, 0], [none, none], 2⟩

def exABFuncTable : FuncTable := ⟨[false, false], 2⟩

def exABBuild : CallNodeBuildState :=
  getCallNodeInfo exABStackTable exABFrameTable exABFuncTable 0

def exABSamples : SamplesTable :=
  ⟨[0, 1, 2], [some 0, some 1, some 0], none, "samples", none, none, none, 3⟩

def exABThread : Thread :=
  ⟨exABStackTable, exABFrameTable, exABFuncTable, [], exABSamples, none, none⟩

/-- C4: for a non-inverted tree, `getTimingsForCallNodeIndex` accumulates
`rootTime` as the sum of `|weight|` over every sample with a non-null
stack, attributes path self time only at samples whose leaf call node
equals the needle, the weight defaults to `1` when the samples table has
no weight column, and on three weight-1 samples with stacks `[A, B, A]`
(`A`, `B` distinct depth-0 call nodes) querying `A` yields
`forPath.selfTime.value = 2` and `rootTime = 3`. -/
theorem timings_noninverted_rootTime_selfTime :
    (∀ (callNodeTable : CallNodeTable) (stackIndexToCallNodeIndex : List Nat)
        (interval : Int) (thread unfilteredThread : Thread)
        (sampleIndexOffset : Nat) (categories : List Category)
        (samples unfilteredSamples : SamplesTable) (needleNodeIndex : Nat),
      (getTimingsForCallNodeIndex (some needleNodeIndex) callNodeTable
        stackIndexToCallNodeIndex interval false thread unfilteredThread
        sampleIndexOffset categories samples unfilteredSamples).rootTime =
        (List.range samples.length).foldl
          (fun a i => a + rootTimeContrib samples i) 0 ∧
      (getTimingsForCallNodeIndex (some needleNodeIndex) callNodeTable
        stackIndexToCallNodeIndex interval false thread unfilteredThread
        sampleIndexOffset categories samples
        unfilteredSamples).forPath.selfTime.value =
        (List.range samples.length).foldl
          (fun a i => a + selfTimeContrib stackIndexToCallNodeIndex
            needleNodeIndex samples i) 0) ∧
    (∀ (samples : SamplesTable) (i : Nat), samples.weight = none →
      sampleWeight samples i = 1) ∧
    ((getTimingsForCallNodeIndex (some 0) exABBuild.table
        exABBuild.stackIndexToCallNodeIndex 1 false exABThread exABThread 0
        [⟨"Other", ["Other"]⟩] exABSamples
        exABSamples).forPath.selfTime.value = 2 ∧
     (getTimingsForCallNodeIndex (some 0) exABBuild.table
        exABBuild.stackIndexToCallNodeIndex 1 false exABThread exABThread 0
        [⟨"Other", ["Other"]⟩] exABSamples exABSamples).rootTime = 3) := by
  refine ⟨?_, ?_, ?_⟩
  · intro callNodeTable stackIndexToCallNodeIndex interval thread
      unfilteredThread sampleIndexOffset categories samples unfilteredSamples
      needleNodeIndex
    exact timingsFold_noninverted callNodeTable stackIndexToCallNodeIndex
      thread unfilteredThread sampleIndexOffset categories samples
      unfilteredSamples needleNodeIndex
      (callNodeTable.func.getD needleNodeIndex 0) samples.length
  · intro samples i h
    simp [sampleWeight, h]
  · exact ⟨by decide, by decide⟩

/-- Witness for `timings_noninverted_rootTime_selfTime`: the weight of a
sample of `exABSamples` (which has no weight column) is `1`. -/
theorem timings_noninverted_rootTime_selfTime_witness :
    sampleWeight exABSamples 0 = 1 :=
  timings_noninverted_rootTime_selfTime.2.1 exABSamples 0 rfl

/-- A timing value whose implementation breakdown was never allocated has
never received a contribution through `accumulateDataToTimings`. -/
def BreakdownOK (tv : TimingsValue) : Prop :=
  tv.breakdownByImplementation = none → tv.value = 0

/-- The breakdown-accompaniment invariant of `getTimingsForCallNodeIndex`:
the function self time, the path total time and the function total time
only ever grow through `accumulateDataToTimings` (so a missing breakdown
means a zero value); the path self time does too in the non-inverted
orientation, while in the inverted orientation its breakdowns are never
allocated at all. -/
def TimingsOK (isInvertedTree : Bool) (t : TimingsForPath) : Prop :=
  BreakdownOK t.forFunc.selfTime ∧ BreakdownOK t.forPath.totalTime ∧
  BreakdownOK t.forFunc.totalTime ∧
  (isInvertedTree = false → BreakdownOK t.forPath.selfTime) ∧
  (isInvertedTree = true →
    t.forPath.selfTime.breakdownByImplementation = none ∧
    t.forPath.selfTime.breakdownByCategory = none)

section TimingsProofs4

variable (callNodeTable : CallNodeTable) (stackIndexToCallNodeIndex : List Nat)
variable (isInvertedTree : Bool) (thread unfilteredThread : Thread)
variable (sampleIndexOffset : Nat) (categories : List Category)
variable (samples unfilteredSamples : SamplesTable)
variable (needleNodeIndex needleFuncIndex : Nat)

theorem breakdownOK_accumulate (timings : TimingsValue)
    (sampleIndex stackIndex : Nat) (duration : Int) :
    BreakdownOK (accumulateDataToTimings thread unfilteredThread categories
      unfilteredSamples sampleIndexOffset timings sampleIndex stackIndex
      duration) :=
  fun h => absurd h (accumulateDataToTimings_impl_isSome thread
    unfilteredThread sampleIndexOffset categories unfilteredSamples timings
    sampleIndex stackIndex duration)

theorem timingsOK_empty : TimingsOK isInvertedTree emptyTimingsForPath :=
  ⟨fun _ => rfl, fun _ => rfl, fun _ => rfl, fun _ => fun _ => rfl,
   fun _ => ⟨rfl, rfl⟩⟩

theorem chainLoopVisit_ok (funcFound : Bool)
    (currentNodeIndex currentFuncIndex sampleIndex thisStackIndex : Nat)
    (weight : Int) (acc : TimingsForPath)
    (h : TimingsOK isInvertedTree acc) :
    TimingsOK isInvertedTree
      (chainLoopVisit isInvertedTree thread unfilteredThread
        sampleIndexOffset categories unfilteredSamples needleNodeIndex
        needleFuncIndex funcFound currentNodeIndex currentFuncIndex
        sampleIndex thisStackIndex weight acc) := by
  obtain ⟨h1, h2, h3, h4, h5⟩ := h
  simp only [chainLoopVisit, TimingsOK]
  repeat' split
  all_goals
    refine ⟨?_, ?_, ?_, ?_, ?_⟩ <;>
      first
        | exact h1
        | exact h2
        | exact h3
        | exact h4
        | exact h5
        | (apply breakdownOK_accumulate <;> exact 0)
        | (intro hh; apply breakdownOK_accumulate <;> exact 0)

theorem chainLoopRootVisit_ok (hinv : isInvertedTree = true)
    (pathFound funcFound : Bool)
    (currentNodeIndex currentFuncIndex currentStackIndex sampleIndex : Nat)
    (weight : Int) (acc : TimingsForPath)
    (h : TimingsOK isInvertedTree acc) :
    TimingsOK isInvertedTree
      (chainLoopRootVisit thread unfilteredThread sampleIndexOffset
        categories unfilteredSamples needleNodeIndex needleFuncIndex
        pathFound funcFound currentNodeIndex currentFuncIndex
        currentStackIndex sampleIndex weight acc) := by
  subst hinv
  obtain ⟨h1, h2, h3, h4, h5⟩ := h
  simp only [chainLoopRootVisit, TimingsOK]
  repeat' split
  all_goals
    refine ⟨?_, ?_, ?_, ?_, ?_⟩ <;>
      first
        | exact h1
        | exact h2
        | exact h3
        | exact h5
        | exact fun hh => h5 rfl
        | exact fun hh => Bool.noConfusion hh
        | (apply breakdownOK_accumulate <;> exact 0)
        | (intro hh; apply breakdownOK_accumulate <;> exact 0)

theorem timingsChainLoop_ok (sampleIndex thisStackIndex : Nat)
    (weight : Int) :
    ∀ fuel cur ff pf acc, TimingsOK isInvertedTree acc →
      TimingsOK isInvertedTree
        (timingsChainLoop callNodeTable stackIndexToCallNodeIndex
          isInvertedTree thread unfilteredThread sampleIndexOffset categories
          unfilteredSamples needleNodeIndex needleFuncIndex sampleIndex
          thisStackIndex weight fuel cur ff pf acc) := by
  intro fuel
  induction fuel with
  | zero => intro cur ff pf acc h; cases cur <;> exact h
  | succ fuel ih =>
      intro cur ff pf acc h
      cases cur with
      | none => exact h
      | some cs =>
          simp only [timingsChainLoop]
          split
          · exact chainLoopVisit_ok isInvertedTree thread unfilteredThread
              sampleIndexOffset categories unfilteredSamples needleNodeIndex
              needleFuncIndex _ _ _ _ _ _ _ h
          · apply ih
            split
            · next hg =>
                exact chainLoopRootVisit_ok isInvertedTree thread
                  unfilteredThread sampleIndexOffset categories
                  unfilteredSamples needleNodeIndex needleFuncIndex hg.1
                  _ _ _ _ _ _ _ _
                  (chainLoopVisit_ok isInvertedTree thread unfilteredThread
                    sampleIndexOffset categories unfilteredSamples
                    needleNodeIndex needleFuncIndex _ _ _ _ _ _ _ h)
            · exact chainLoopVisit_ok isInvertedTree thread unfilteredThread
                sampleIndexOffset categories unfilteredSamples
                needleNodeIndex needleFuncIndex _ _ _ _ _ _ _ h

theorem sampleSelfVisit_ok
    (thisNodeIndex thisFunc sampleIndex thisStackIndex : Nat) (weight : Int)
    (acc : TimingsForPath) (h : TimingsOK isInvertedTree acc) :
    TimingsOK isInvertedTree
      (sampleSelfVisit isInvertedTree thread unfilteredThread
        sampleIndexOffset categories unfilteredSamples needleNodeIndex
        needleFuncIndex thisNodeIndex thisFunc sampleIndex thisStackIndex
        weight acc) := by
  obtain ⟨h1, h2, h3, h4, h5⟩ := h
  simp only [sampleSelfVisit, TimingsOK]
  repeat' split
  all_goals
    refine ⟨?_, ?_, ?_, ?_, ?_⟩ <;>
      first
        | exact h1
        | exact h2
        | exact h3
        | exact h4
        | exact h5
        | (apply breakdownOK_accumulate <;> exact 0)
        | (intro hh; apply breakdownOK_accumulate <;> exact 0)
        | (intro hh; next hcond => exact absurd hh (by
            rw [hcond.1]; exact fun hx => Bool.noConfusion hx))
        | (intro hh; next hcond _ => exact absurd hh (by
            rw [hcond.1]; exact fun hx => Bool.noConfusion hx))

theorem processTimingsSample_ok (acc : TimingsForPath) (i : Nat)
    (h : TimingsOK isInvertedTree acc) :
    TimingsOK isInvertedTree
      (processTimingsSample callNodeTable stackIndexToCallNodeIndex
        isInvertedTree thread unfilteredThread sampleIndexOffset categories
        samples unfilteredSamples needleNodeIndex needleFuncIndex acc i) := by
  simp only [processTimingsSample]
  cases samples.stack.getD i none with
  | none => exact h
  | some s =>
      apply timingsChainLoop_ok
      apply sampleSelfVisit_ok
      exact h

theorem timingsFold_ok (l : List Nat) :
    ∀ acc, TimingsOK isInvertedTree acc →
      TimingsOK isInvertedTree
        (l.foldl (processTimingsSample callNodeTable
          stackIndexToCallNodeIndex isInvertedTree thread unfilteredThread
          sampleIndexOffset categories samples unfilteredSamples
          needleNodeIndex needleFuncIndex) acc) := by
  induction l with
  | nil => intro acc h; exact h
  | cons x xs ih =>
      intro acc h
      exact ih _ (processTimingsSample_ok callNodeTable
        stackIndexToCallNodeIndex isInvertedTree thread unfilteredThread
        sampleIndexOffset categories samples unfilteredSamples
        needleNodeIndex needleFuncIndex acc x h)

end TimingsProofs4

def exInvStackTable : StackTable := ⟨[none], [0], [0], [0], 1⟩

def exInvFrameTable : FrameTable := ⟨[0], [0], [none], 1⟩

def exInvFuncTable : FuncTable := ⟨[false], 1⟩

def exInvBuild : CallNodeBuildState :=
  getCallNodeInfo exInvStackTable exInvFrameTable exInvFuncTable 0

def exInvSamples : SamplesTable :=
  ⟨[0], [some 0], none, "samples", none, none, none, 1⟩

def exInvThread : Thread :=
  ⟨exInvStackTable, exInvFrameTable, exInvFuncTable, [], exInvSamples, none,
   none⟩

/-- C5 counterexample: in the inverted orientation, the path self time at
the root of the walk is incremented directly (`+= weight`), bypassing
`accumulateDataToTimings`, so its value becomes `1` while both of its
breakdowns stay unallocated — contradicting the claim that every
contribution also updates the breakdowns.  The sibling function self time
of the very same sample does go through the helper and gets an
implementation breakdown. -/
theorem inverted_root_selfTime_no_breakdown :
    (getTimingsForCallNodeIndex (some 0) exInvBuild.table
      exInvBuild.stackIndexToCallNodeIndex 1 true exInvThread exInvThread 0
      [⟨"Other", ["Other"]⟩] exInvSamples
      exInvSamples).forPath.selfTime.value = 1 ∧
    (getTimingsForCallNodeIndex (some 0) exInvBuild.table
      exInvBuild.stackIndexToCallNodeIndex 1 true exInvThread exInvThread 0
      [⟨"Other", ["Other"]⟩] exInvSamples
      exInvSamples).forPath.selfTime.breakdownByImplementation = none ∧
    (getTimingsForCallNodeIndex (some 0) exInvBuild.table
      exInvBuild.stackIndexToCallNodeIndex 1 true exInvThread exInvThread 0
      [⟨"Other", ["Other"]⟩] exInvSamples
      exInvSamples).forPath.selfTime.breakdownByCategory = none ∧
    (getTimingsForCallNodeIndex (some 0) exInvBuild.table
      exInvBuild.stackIndexToCallNodeIndex 1 true exInvThread exInvThread 0
      [⟨"Other", ["Other"]⟩] exInvSamples
      exInvSamples).forFunc.selfTime.breakdownByImplementation ≠ none := by
  refine ⟨by decide, by decide, by decide, by decide⟩

/-- C5 (amended): every timing contribution of
`getTimingsForCallNodeIndex` except the inverted-orientation path self
time goes through `accumulateDataToTimings` and therefore allocates and
updates the implementation breakdown (a never-allocated breakdown implies
a zero value, for the function self time, the path total time, the
function total time in both orientations, and for the path self time in
the non-inverted orientation); the inverted-orientation path self time
instead only ever increments its bare value, leaving both of its
breakdowns unallocated in the final result. -/
theorem timings_breakdown_accompaniment :
    ∀ (needleNodeIndex : Option Nat) (callNodeTable : CallNodeTable)
      (stackIndexToCallNodeIndex : List Nat) (interval : Int)
      (isInvertedTree : Bool) (thread unfilteredThread : Thread)
      (sampleIndexOffset : Nat) (categories : List Category)
      (samples unfilteredSamples : SamplesTable),
      TimingsOK isInvertedTree
        (getTimingsForCallNodeIndex needleNodeIndex callNodeTable
          stackIndexToCallNodeIndex interval isInvertedTree thread
          unfilteredThread sampleIndexOffset categories samples
          unfilteredSamples) := by
  intro needleNodeIndex callNodeTable stackIndexToCallNodeIndex interval
    isInvertedTree thread unfilteredThread sampleIndexOffset categories
    samples unfilteredSamples
  cases needleNodeIndex with
  | none => exact timingsOK_empty isInvertedTree
  | some needle =>
      exact timingsFold_ok callNodeTable stackIndexToCallNodeIndex
        isInvertedTree thread unfilteredThread sampleIndexOffset categories
        samples unfilteredSamples needle
        (callNodeTable.func.getD needle 0) (List.range samples.length)
        emptyTimingsForPath (timingsOK_empty isInvertedTree)

/-- Witness for `timings_breakdown_accompaniment`: with a null needle the
result is empty, its function self-time breakdown is unallocated, and the
theorem then forces its value to be `0`. -/
theorem timings_breakdown_accompaniment_witness :
    (getTimingsForCallNodeIndex none exABBuild.table
      exABBuild.stackIndexToCallNodeIndex 1 false exABThread exABThread 0
      [⟨"Other", ["Other"]⟩] exABSamples exABSamples).forFunc.selfTime.value
      = 0 :=
  (timings_breakdown_accompaniment none exABBuild.table
    exABBuild.stackIndexToCallNodeIndex 1 false exABThread exABThread 0
    [⟨"Other", ["Other"]⟩] exABSamples exABSamples).1 rfl
